import Mathlib

/-!
# Constraint solver of the 2D physics engine (`compeller2D`)

A shallow embedding of `src/engine/src/compeller2D.cpp`, and of
`src/engine/src/ode2D.cpp` and `src/geometry/src/box2D.cpp`, in exact rational
arithmetic.  `std::vector<float>` is a `List ℚ`; a read `v[i]` is
`v.getD i 0` and a write `v[i] = x` is `v.set i x`.  Loops are written with
`forLoop`, which runs its body for `i = lo, lo + 1, ..., hi - 1` in that order.
Division is the division of `ℚ`, for which `x / 0 = 0`; the float division of
the program would give an infinity or a NaN there, which exact arithmetic does
not represent.
-/

namespace phys

open Finset

/-! ## Loops -/

/-- The state after the first `n` iterations of a counting loop that starts at
`lo`: iteration number `n` runs the body at index `lo + n`. -/
def iterate (lo : Nat) (body : Nat → σ → σ) (s : σ) : Nat → σ
  | 0 => s
  | n + 1 => body (lo + n) (iterate lo body s n)

/-- The loop `for (std::size_t i = lo; i < hi; i++) s = body i s`. -/
def forLoop (lo hi : Nat) (body : Nat → σ → σ) (s : σ) : σ :=
  iterate lo body s (hi - lo)

/-! ## Data model -/

/-- Modelled from the spec: the macro `POS_PER_ENTITY` (defined in a header that
is not part of the sources at hand) is the number of position coordinates
`(x, y, angle)` of a body; `compeller2D.hpp` spells the gradient type
`std::array<float, 3>`. -/
abbrev POS_PER_ENTITY : Nat := 3

/-- The macro `VAR_PER_ENTITY` of `compeller2D.cpp`. -/
abbrev VAR_PER_ENTITY : Nat := 6

/-- Number of values of a `std::size_t` (64-bit). -/
abbrev SIZE_T : Nat := 2 ^ 64

/-- The part of `entity2D` the solver reads: the dynamic flag. -/
structure entity2D where
  dynamic : Bool
deriving DecidableEq, Repr

/-- Modelled from the spec: the abstract class `constrain_interface` (its header
is not part of the sources at hand).  `entities` lists the indices
`operator[](j).index()` of the bodies the constraint couples, `value` and
`derivative` are `C` and `dC/dt`, and the two gradients give, for a body index,
the three components of a `std::array<float, 3>`. -/
structure constrain_interface where
  entities : List Nat
  value : ℚ
  derivative : ℚ
  constrain_grad : Nat → Nat → ℚ
  constrain_grad_derivative : Nat → Nat → ℚ

instance : Inhabited constrain_interface :=
  ⟨⟨[], 0, 0, fun _ _ => 0, fun _ _ => 0⟩⟩

/-- The members of `compeller2D`. -/
structure compeller2D where
  m_entities : List entity2D
  m_constrains : List constrain_interface
  m_stiffness : ℚ
  m_dampening : ℚ

/-! ## The solver -/

/-- The method `compeller2D::constrain_matrix`: the `rows × cols` matrix, row-major, whose
row `i` holds the gradient of constraint `i` at the columns of its bodies. -/
def constrain_matrix (c : compeller2D)
    (constrain_grad : constrain_interface → Nat → Nat → ℚ) : List ℚ :=
  let rows := c.m_constrains.length
  let cols := POS_PER_ENTITY * c.m_entities.length
  forLoop 0 rows (fun i cmatrix =>
    forLoop 0 (c.m_constrains.getD i default).entities.length (fun j cmatrix =>
      let e := (c.m_constrains.getD i default).entities.getD j 0
      let state := constrain_grad (c.m_constrains.getD i default) e
      forLoop 0 POS_PER_ENTITY (fun k cmatrix =>
        cmatrix.set (i * cols + e * POS_PER_ENTITY + k) (state k)) cmatrix) cmatrix)
    (List.replicate (rows * cols) 0)

/-- The method `compeller2D::jacobian`. -/
def jacobian (c : compeller2D) : List ℚ :=
  constrain_matrix c constrain_interface.constrain_grad

/-- The method `compeller2D::jacobian_derivative`. -/
def jacobian_derivative (c : compeller2D) : List ℚ :=
  constrain_matrix c constrain_interface.constrain_grad_derivative

/-- The method `compeller2D::lhs`. -/
def lhs (c : compeller2D) (jcb inv_masses : List ℚ) : List ℚ :=
  let rows := c.m_constrains.length
  let cols := POS_PER_ENTITY * c.m_entities.length
  forLoop 0 rows (fun i A =>
    forLoop 0 rows (fun j A =>
      let id := i * rows + j
      forLoop 0 cols (fun k A =>
        let id1 := i * cols + k
        let id2 := j * cols + k
        A.set id (A.getD id 0 + jcb.getD id1 0 * jcb.getD id2 0 * inv_masses.getD k 0))
        A) A)
    (List.replicate (rows * rows) 0)

/-- The method `compeller2D::rhs` (the vectors `qdot` and `accels` it allocates are never
read). -/
def rhs (c : compeller2D) (jcb djcb stchanges inv_masses : List ℚ) : List ℚ :=
  let rows := c.m_constrains.length
  let cols := POS_PER_ENTITY * c.m_entities.length
  forLoop 0 rows (fun i b =>
    let b := forLoop 0 c.m_entities.length (fun j b =>
      forLoop 0 POS_PER_ENTITY (fun k b =>
        let index1 := j * POS_PER_ENTITY + k
        let index2 := j * VAR_PER_ENTITY + k
        let id := i * cols + index1
        b.set i (b.getD i 0 -
          (djcb.getD id 0 * stchanges.getD index2 0 +
            jcb.getD id 0 * stchanges.getD (index2 + POS_PER_ENTITY) 0) *
          inv_masses.getD index1 0)) b) b
    b.set i (b.getD i 0 -
      (c.m_stiffness * (c.m_constrains.getD i default).value +
        c.m_dampening * (c.m_constrains.getD i default).derivative)))
    (List.replicate rows 0)

/-- The first loop of `compeller2D::lu_decomposition`: the Doolittle
factorisation, on the pair `(L, U)` that starts as two zero matrices. -/
def lu_factor (size : Nat) (A : List ℚ) : List ℚ × List ℚ :=
  forLoop 0 size (fun i LU =>
    let L := LU.1
    let U := forLoop i size (fun j U =>
      let sum := forLoop 0 i (fun k sum =>
        sum + L.getD (i * size + k) 0 * U.getD (k * size + j) 0) 0
      U.set (i * size + j) (A.getD (i * size + j) 0 - sum)) LU.2
    let L := L.set (i * size + i) 1
    let L := forLoop (i + 1) size (fun j L =>
      let sum := forLoop 0 i (fun k sum =>
        sum + L.getD (j * size + k) 0 * U.getD (k * size + i) 0) 0
      L.set (j * size + i) ((A.getD (j * size + i) 0 - sum) / U.getD (i * size + i) 0)) L
    (L, U))
    (List.replicate (size * size) 0, List.replicate (size * size) 0)

/-- The second loop of `compeller2D::lu_decomposition`: forward substitution. -/
def lu_forward (size : Nat) (L b : List ℚ) : List ℚ :=
  forLoop 0 size (fun i sol =>
    let val := forLoop 0 i (fun j val =>
      val - L.getD (i * size + j) 0 * sol.getD j 0) (b.getD i 0)
    sol.set i (val / L.getD (i * size + i) 0))
    (List.replicate size 0)

/-- The third loop of `compeller2D::lu_decomposition`,
`for (std::size_t i = size - 1; i >= 0 && i < size; i--)`, from the counter
value `i` on.  The counter is unsigned: `i--` is taken modulo `SIZE_T`, and
`i >= 0` always holds.  `fuel` bounds the number of times the loop condition is
evaluated; `none` means the bound was reached before the loop ended. -/
def lu_backward (size : Nat) (U : List ℚ) : Nat → Nat → List ℚ → Option (List ℚ)
  | 0, _, _ => none
  | fuel + 1, i, sol =>
    if i < size then
      let val := forLoop (i + 1) size (fun j val =>
        val - U.getD (i * size + j) 0 * sol.getD j 0) (sol.getD i 0)
      lu_backward size U fuel ((i + SIZE_T - 1) % SIZE_T)
        (sol.set i (val / U.getD (i * size + i) 0))
    else some sol

/-- The method `compeller2D::lu_decomposition`. -/
def lu_decomposition (fuel : Nat) (c : compeller2D) (A b : List ℚ) : Option (List ℚ) :=
  let size := c.m_constrains.length
  let LU := lu_factor size A
  let sol := lu_forward size LU.1 b
  lu_backward size LU.2 fuel ((size + SIZE_T - 1) % SIZE_T) sol

/-- The method `compeller2D::load_constrain_accels`. -/
def load_constrain_accels (c : compeller2D) (jcb lambda stchanges : List ℚ) : List ℚ :=
  let rows := c.m_constrains.length
  forLoop 0 c.m_entities.length (fun i stchanges =>
    if (c.m_entities.getD i ⟨false⟩).dynamic then
      forLoop 0 POS_PER_ENTITY (fun j stchanges =>
        forLoop 0 rows (fun k stchanges =>
          let id1 := VAR_PER_ENTITY * i + j + POS_PER_ENTITY
          let id2 := (i * POS_PER_ENTITY + j) * rows + k
          stchanges.set id1 (stchanges.getD id1 0 + jcb.getD id2 0 * lambda.getD k 0))
          stchanges) stchanges
    else stchanges) stchanges

/-- The method `compeller2D::solve_and_load_constrains`: the new contents of `stchanges`. -/
def solve_and_load_constrains (fuel : Nat) (c : compeller2D)
    (stchanges inv_masses : List ℚ) : Option (List ℚ) :=
  let jcb := jacobian c
  let djcb := jacobian_derivative c
  let A := lhs c jcb inv_masses
  let b := rhs c jcb djcb stchanges inv_masses
  (lu_decomposition fuel c A b).map fun lambda =>
    load_constrain_accels c jcb lambda stchanges


/-! ## Closed forms and invariants used by the proofs -/

/-- The entry `(i, j)` of `J · diag(W) · Jᵀ` for a row-major `J` with `cols` columns. -/
def lhs_entry (cols : Nat) (jcb inv_masses : List ℚ) (i j : Nat) : ℚ :=
  ∑ k ∈ range cols, jcb.getD (i * cols + k) 0 * jcb.getD (j * cols + k) 0 * inv_masses.getD k 0

/-- The body term of `rhs` for constraint `i`, body `j` and coordinate `k`. -/
def rhs_term (cols : Nat) (jcb djcb stchanges inv_masses : List ℚ) (i j k : Nat) : ℚ :=
  (djcb.getD (i * cols + (j * POS_PER_ENTITY + k)) 0 * stchanges.getD (j * VAR_PER_ENTITY + k) 0 +
    jcb.getD (i * cols + (j * POS_PER_ENTITY + k)) 0 *
      stchanges.getD (j * VAR_PER_ENTITY + k + POS_PER_ENTITY) 0) *
    inv_masses.getD (j * POS_PER_ENTITY + k) 0

/-- The entry `i` of the right-hand side as the code accumulates it. -/
def rhs_entry (c : compeller2D) (jcb djcb stchanges inv_masses : List ℚ) (i : Nat) : ℚ :=
  0 - (∑ j ∈ range c.m_entities.length, ∑ k ∈ range POS_PER_ENTITY,
      rhs_term (POS_PER_ENTITY * c.m_entities.length) jcb djcb stchanges inv_masses i j k) -
    (c.m_stiffness * (c.m_constrains.getD i default).value +
      c.m_dampening * (c.m_constrains.getD i default).derivative)

/-- The entry of the constraint matrix in row `r` at the column of coordinate `d`
of body `k`. -/
def cm_entry (c : compeller2D) (grad : constrain_interface → Nat → Nat → ℚ) (r k d : Nat) : ℚ :=
  if k ∈ (c.m_constrains.getD r default).entities then
    grad (c.m_constrains.getD r default) k d
  else 0

/-- The amount `load_constrain_accels` adds to coordinate `j` of body `i`: the
Jacobian is read at `(i * 3 + j) * rows + k`. -/
def load_term (rows : Nat) (jcb lambda : List ℚ) (i j : Nat) : ℚ :=
  ∑ k ∈ range rows, jcb.getD ((i * 3 + j) * rows + k) 0 * lambda.getD k 0

/-- One iteration of the back-substitution loop, at counter value `i`. -/
def back_body (size : Nat) (U : List ℚ) (i : Nat) (sol : List ℚ) : List ℚ :=
  sol.set i ((sol.getD i 0 - ∑ j ∈ Ico (i + 1) size, U.getD (i * size + j) 0 * sol.getD j 0) /
    U.getD (i * size + i) 0)

/-- The iterations `i = n - 1, n - 2, ..., 0` of the back-substitution loop, in
that order. -/
def back_steps (size : Nat) (U : List ℚ) : Nat → List ℚ → List ℚ
  | 0, sol => sol
  | n + 1, sol => back_steps size U n (back_body size U n sol)

/-- The state of the factorisation once the rows of `U` and the columns of `L`
below `i` are written: those entries obey the Doolittle recurrences, every other
entry is still zero. -/
def lu_inv (n : Nat) (A : List ℚ) (i : Nat) (LU : List ℚ × List ℚ) : Prop :=
  LU.1.length = n * n ∧ LU.2.length = n * n ∧
  (∀ r j, r < i → r ≤ j → j < n →
    LU.2.getD (r * n + j) 0 =
      A.getD (r * n + j) 0 - ∑ k ∈ range r, LU.1.getD (r * n + k) 0 * LU.2.getD (k * n + j) 0) ∧
  (∀ r, r < i → r < n → LU.1.getD (r * n + r) 0 = 1) ∧
  (∀ r j, r < i → r < j → j < n →
    LU.1.getD (j * n + r) 0 =
      (A.getD (j * n + r) 0 - ∑ k ∈ range r, LU.1.getD (j * n + k) 0 * LU.2.getD (k * n + r) 0) /
        LU.2.getD (r * n + r) 0) ∧
  (∀ r j, r < n → j < n → (i ≤ r ∨ j < r) → LU.2.getD (r * n + j) 0 = 0) ∧
  (∀ r j, r < n → j < n → (i ≤ j ∨ r < j) → LU.1.getD (r * n + j) 0 = 0)

/-- The left-hand side of the Baumgarte condition for constraint `i`, in the
words of the specification: the sum over the bodies `k` and `d < 3` of
`J[i][3k+d] * a[k][d] + Jdot[i][3k+d] * qdot[k][d]`, plus `stiffness * C_i`, plus
`dampening * Cdot_i`, where `qdot` is read from the `stchanges` given to the
solver and `a` from the `stchanges` it leaves. -/
def baumgarte_residual (c : compeller2D) (stchanges st : List ℚ) (i : Nat) : ℚ :=
  ∑ k ∈ range c.m_entities.length, ∑ d ∈ range 3,
    ((jacobian c).getD (i * (3 * c.m_entities.length) + 3 * k + d) 0 *
        st.getD (6 * k + 3 + d) 0 +
      (jacobian_derivative c).getD (i * (3 * c.m_entities.length) + 3 * k + d) 0 *
        stchanges.getD (6 * k + d) 0) +
    c.m_stiffness * (c.m_constrains.getD i default).value +
    c.m_dampening * (c.m_constrains.getD i default).derivative

/-- The body of the third loop of `lu_decomposition` at counter value `i`. -/
def lu_backward_body (size : Nat) (U : List ℚ) (i : Nat) (sol : List ℚ) : List ℚ :=
  sol.set i (forLoop (i + 1) size (fun j val =>
    val - U.getD (i * size + j) 0 * sol.getD j 0) (sol.getD i 0) / U.getD (i * size + i) 0)

/-- The counter values at which the third loop of `lu_decomposition` runs its
body, in the order in which it runs them: the loop of `lu_backward` with the same
unsigned counter and the same bound on the evaluations of the loop condition,
recording `i` instead of updating `sol`. -/
def lu_backward_counter (size : Nat) : Nat → Nat → Option (List Nat)
  | 0, _ => none
  | fuel + 1, i =>
    if i < size then
      (lu_backward_counter size fuel ((i + SIZE_T - 1) % SIZE_T)).map (fun is => i :: is)
    else some []

/-! ## Example systems -/

/-- A gradient that is `(1, 0, 0)` for every body. -/
def grad_x : Nat → Nat → ℚ := fun _ k => if k = 0 then 1 else 0

/-- The zero gradient. -/
def grad_zero : Nat → Nat → ℚ := fun _ _ => 0

/-- One dynamic body under one constraint with `C = 1`, `dC/dt = 0` and gradient
`(1, 0, 0)`, with the default stiffness `5` and dampening `2`. -/
def one_constraint : compeller2D :=
  ⟨[⟨true⟩], [⟨[0], 1, 0, grad_x, grad_zero⟩], 5, 2⟩

/-- One dynamic body under two identical constraints. -/
def twin_constraints : compeller2D :=
  ⟨[⟨true⟩], [⟨[0], 1, 0, grad_x, grad_zero⟩, ⟨[0], 1, 0, grad_x, grad_zero⟩], 5, 2⟩

/-- One dynamic body under two constraints with gradients `(1, 2, 3)` and
`(4, 5, 6)`. -/
def two_rows : compeller2D :=
  ⟨[⟨true⟩], [⟨[0], 0, 0, fun _ k => (k : ℚ) + 1, grad_zero⟩,
    ⟨[0], 0, 0, fun _ k => (k : ℚ) + 4, grad_zero⟩], 5, 2⟩

/-- Two static bodies and a dynamic one; the first constraint couples the two
static bodies, the second holds the dynamic body. -/
def static_pair : compeller2D :=
  ⟨[⟨false⟩, ⟨false⟩, ⟨true⟩],
    [⟨[0, 1], 1, 0, grad_x, grad_zero⟩, ⟨[2], 1, 0, grad_x, grad_zero⟩], 5, 2⟩

/-! ## Geometry: `vec2` and `box2D` -/

/-- The struct `vec2` of `vec2.hpp`: two float coordinates. -/
structure vec2 where
  x : ℚ
  y : ℚ
deriving DecidableEq

/-- Modelled from the spec: `operator-(const vec2 &, const vec2 &)`, declared in
`vec2.hpp` and defined in a file that is not part of the sources at hand, is the
usual componentwise subtraction. -/
instance : Sub vec2 := ⟨fun a b => ⟨a.x - b.x, a.y - b.y⟩⟩

/-- The value of `std::numeric_limits<float>::max()`, `(2 - 2^-23) * 2^127`. -/
def FLT_MAX : ℚ := (2 ^ 24 - 1) * 2 ^ 104

/-- The members of `box2D` that `box2D.cpp` uses. -/
structure box2D where
  m_vertices : List vec2
  m_min : vec2
  m_max : vec2

/-- The method `box2D::bound`. -/
def box2D.bound (self : box2D) : box2D :=
  self.m_vertices.foldl (fun b v =>
    let b := if b.m_min.x > v.x then { b with m_min := { b.m_min with x := v.x } } else b
    let b := if b.m_min.y > v.y then { b with m_min := { b.m_min with y := v.y } } else b
    let b := if b.m_max.x < v.x then { b with m_max := { b.m_max with x := v.x } } else b
    let b := if b.m_max.y < v.y then { b with m_max := { b.m_max with y := v.y } } else b
    b)
    { self with m_min := ⟨FLT_MAX, FLT_MAX⟩, m_max := ⟨-FLT_MAX, -FLT_MAX⟩ }

/-- The constructor `box2D::box2D(const std::vector<vec2> &vertices)`. -/
def box2D.construct (vertices : List vec2) : box2D :=
  box2D.bound ⟨vertices, ⟨0, 0⟩, ⟨0, 0⟩⟩

/-- The method `box2D::overlaps`. -/
def box2D.overlaps (self box : box2D) : Bool :=
  let df1 := box.m_min - self.m_min
  let df2 := box.m_max - self.m_max
  if df1.x > 0 ∨ df1.y > 0 then false
  else if df2.x > 0 ∨ df2.y > 0 then false
  else true

/-- The running minimum that `bound` keeps of one coordinate `f`. -/
def fold_min (f : vec2 → ℚ) (m : ℚ) (vs : List vec2) : ℚ :=
  vs.foldl (fun m v => if m > f v then f v else m) m

/-- The running maximum that `bound` keeps of one coordinate `f`. -/
def fold_max (f : vec2 → ℚ) (m : ℚ) (vs : List vec2) : ℚ :=
  vs.foldl (fun m v => if m < f v then f v else m) m

/-- The box of the unit square. -/
def unit_box : box2D := box2D.construct [⟨0, 0⟩, ⟨1, 1⟩]

/-- The box of a square that overlaps the unit square. -/
def shifted_box : box2D := box2D.construct [⟨1 / 2, 1 / 2⟩, ⟨2, 2⟩]

/-- The box of a square far to the lower left of the unit square. -/
def far_box : box2D := box2D.construct [⟨-5, -5⟩, ⟨-4, -4⟩]

/-! ## The ODE callback -/

/-- Modelled from the spec: the class `engine2D` (its header and source are not
part of the sources at hand).  `m_entities` holds, for each body, what
`entity2D::accel()` returns, a `std::pair<vec2, float>` of linear and angular
accumulated acceleration; the engine also owns the constraint solver and the
inverse masses. -/
structure engine2D where
  m_entities : List (vec2 × ℚ)
  m_compeller : compeller2D
  m_inv_masses : List ℚ

/-- The function `physics::ode` of `ode2D.cpp`: the returned vector and the
engine it leaves.  The methods `engine2D::retrieve` and
`engine2D::reset_accelerations`, which are not part of the sources at hand, are
parameters. -/
def ode (retrieve : List ℚ → engine2D → engine2D) (reset_accelerations : engine2D → engine2D)
    (_t : ℚ) (state : List ℚ) (engine : engine2D) : List ℚ × engine2D :=
  let engine := retrieve state engine
  let engine := reset_accelerations engine
  (forLoop 0 engine.m_entities.length (fun i result =>
    let accel := engine.m_entities.getD i (⟨0, 0⟩, 0)
    let j := VAR_PER_ENTITY * i
    result ++ [state.getD (j + 3) 0, state.getD (j + 4) 0, state.getD (j + 5) 0,
      accel.1.x, accel.1.y, accel.2]) [], engine)

/-- An engine with one body at rest under the constraint of `one_constraint`,
with inverse masses `[2, 2, 2]`. -/
def engine_one_constraint : engine2D :=
  ⟨[(⟨0, 0⟩, 0)], one_constraint, [2, 2, 2]⟩

/-- The same engine without any constraint. -/
def engine_no_constraint : engine2D :=
  ⟨[(⟨0, 0⟩, 0)], ⟨[⟨true⟩], [], 5, 2⟩, [2, 2, 2]⟩

/-! ## The solver with bounds-checked indexing

The same functions once more, with every read `v[i]` and every write `v[i] = x`
checked against the length of `v`: the result is `none` as soon as one index is
out of bounds. -/

/-- A checked read `v[i]`. -/
def read (v : List ℚ) (i : Nat) : Option ℚ := v[i]?

/-- A checked write `v[i] = x`. -/
def write (v : List ℚ) (i : Nat) (x : ℚ) : Option (List ℚ) :=
  if i < v.length then some (v.set i x) else none

/-- The state after the first `n` iterations of a counting loop whose body may
fail. -/
def iterateM (lo : Nat) (body : Nat → σ → Option σ) (s : σ) : Nat → Option σ
  | 0 => some s
  | n + 1 => (iterateM lo body s n).bind (body (lo + n))

/-- The loop `for (std::size_t i = lo; i < hi; i++)` with a body that may fail. -/
def forLoopM (lo hi : Nat) (body : Nat → σ → Option σ) (s : σ) : Option σ :=
  iterateM lo body s (hi - lo)

/-- The method `compeller2D::constrain_matrix`, with checked indexing. -/
def constrain_matrix_checked (c : compeller2D)
    (constrain_grad : constrain_interface → Nat → Nat → ℚ) : Option (List ℚ) :=
  let rows := c.m_constrains.length
  let cols := POS_PER_ENTITY * c.m_entities.length
  forLoopM 0 rows (fun i cmatrix => do
    let ci ← c.m_constrains[i]?
    forLoopM 0 ci.entities.length (fun j cmatrix => do
      let e ← ci.entities[j]?
      let state := constrain_grad ci e
      forLoopM 0 POS_PER_ENTITY (fun k cmatrix =>
        write cmatrix (i * cols + e * POS_PER_ENTITY + k) (state k)) cmatrix) cmatrix)
    (List.replicate (rows * cols) 0)

/-- The method `compeller2D::lhs`, with checked indexing. -/
def lhs_checked (c : compeller2D) (jcb inv_masses : List ℚ) : Option (List ℚ) :=
  let rows := c.m_constrains.length
  let cols := POS_PER_ENTITY * c.m_entities.length
  forLoopM 0 rows (fun i A =>
    forLoopM 0 rows (fun j A =>
      let id := i * rows + j
      forLoopM 0 cols (fun k A => do
        let id1 := i * cols + k
        let id2 := j * cols + k
        let a ← read A id
        let x ← read jcb id1
        let y ← read jcb id2
        let w ← read inv_masses k
        write A id (a + x * y * w)) A) A)
    (List.replicate (rows * rows) 0)

/-- The method `compeller2D::rhs`, with checked indexing. -/
def rhs_checked (c : compeller2D) (jcb djcb stchanges inv_masses : List ℚ) :
    Option (List ℚ) :=
  let rows := c.m_constrains.length
  let cols := POS_PER_ENTITY * c.m_entities.length
  forLoopM 0 rows (fun i b => do
    let b ← forLoopM 0 c.m_entities.length (fun j b =>
      forLoopM 0 POS_PER_ENTITY (fun k b => do
        let index1 := j * POS_PER_ENTITY + k
        let index2 := j * VAR_PER_ENTITY + k
        let id := i * cols + index1
        let bi ← read b i
        let dj ← read djcb id
        let q ← read stchanges index2
        let jc ← read jcb id
        let a ← read stchanges (index2 + POS_PER_ENTITY)
        let w ← read inv_masses index1
        write b i (bi - (dj * q + jc * a) * w)) b) b
    let bi ← read b i
    let ci ← c.m_constrains[i]?
    write b i (bi - (c.m_stiffness * ci.value + c.m_dampening * ci.derivative)))
    (List.replicate rows 0)

/-- The first loop of `compeller2D::lu_decomposition`, with checked indexing. -/
def lu_factor_checked (size : Nat) (A : List ℚ) : Option (List ℚ × List ℚ) :=
  forLoopM 0 size (fun i LU => do
    let L := LU.1
    let U ← forLoopM i size (fun j U => do
      let sum ← forLoopM 0 i (fun k sum => do
        let l ← read L (i * size + k)
        let u ← read U (k * size + j)
        pure (sum + l * u)) 0
      let a ← read A (i * size + j)
      write U (i * size + j) (a - sum)) LU.2
    let L ← write L (i * size + i) 1
    let L ← forLoopM (i + 1) size (fun j L => do
      let sum ← forLoopM 0 i (fun k sum => do
        let l ← read L (j * size + k)
        let u ← read U (k * size + i)
        pure (sum + l * u)) 0
      let a ← read A (j * size + i)
      let p ← read U (i * size + i)
      write L (j * size + i) ((a - sum) / p)) L
    pure (L, U))
    (List.replicate (size * size) 0, List.replicate (size * size) 0)

/-- The second loop of `compeller2D::lu_decomposition`, with checked indexing. -/
def lu_forward_checked (size : Nat) (L b : List ℚ) : Option (List ℚ) :=
  forLoopM 0 size (fun i sol => do
    let bi ← read b i
    let val ← forLoopM 0 i (fun j val => do
      let l ← read L (i * size + j)
      let s ← read sol j
      pure (val - l * s)) bi
    let p ← read L (i * size + i)
    write sol i (val / p))
    (List.replicate size 0)

/-- The third loop of `compeller2D::lu_decomposition`, with checked indexing
(`none` also when the fuel runs out). -/
def lu_backward_checked (size : Nat) (U : List ℚ) : Nat → Nat → List ℚ → Option (List ℚ)
  | 0, _, _ => none
  | fuel + 1, i, sol =>
    if i < size then do
      let si ← read sol i
      let val ← forLoopM (i + 1) size (fun j val => do
        let u ← read U (i * size + j)
        let s ← read sol j
        pure (val - u * s)) si
      let p ← read U (i * size + i)
      let sol ← write sol i (val / p)
      lu_backward_checked size U fuel ((i + SIZE_T - 1) % SIZE_T) sol
    else some sol

/-- The method `compeller2D::lu_decomposition`, with checked indexing. -/
def lu_decomposition_checked (fuel : Nat) (c : compeller2D) (A b : List ℚ) :
    Option (List ℚ) := do
  let size := c.m_constrains.length
  let LU ← lu_factor_checked size A
  let sol ← lu_forward_checked size LU.1 b
  lu_backward_checked size LU.2 fuel ((size + SIZE_T - 1) % SIZE_T) sol

/-- The method `compeller2D::load_constrain_accels`, with checked indexing. -/
def load_constrain_accels_checked (c : compeller2D) (jcb lambda stchanges : List ℚ) :
    Option (List ℚ) :=
  let rows := c.m_constrains.length
  forLoopM 0 c.m_entities.length (fun i stchanges => do
    let e ← c.m_entities[i]?
    if e.dynamic then
      forLoopM 0 POS_PER_ENTITY (fun j stchanges =>
        forLoopM 0 rows (fun k stchanges => do
          let id1 := VAR_PER_ENTITY * i + j + POS_PER_ENTITY
          let id2 := (i * POS_PER_ENTITY + j) * rows + k
          let s ← read stchanges id1
          let x ← read jcb id2
          let l ← read lambda k
          write stchanges id1 (s + x * l)) stchanges) stchanges
    else pure stchanges) stchanges

/-- The method `compeller2D::solve_and_load_constrains`, with checked indexing. -/
def solve_and_load_constrains_checked (fuel : Nat) (c : compeller2D)
    (stchanges inv_masses : List ℚ) : Option (List ℚ) := do
  let jcb ← constrain_matrix_checked c constrain_interface.constrain_grad
  let djcb ← constrain_matrix_checked c constrain_interface.constrain_grad_derivative
  let A ← lhs_checked c jcb inv_masses
  let b ← rhs_checked c jcb djcb stchanges inv_masses
  let lambda ← lu_decomposition_checked fuel c A b
  load_constrain_accels_checked c jcb lambda stchanges

/-- One body and one constraint that references a body with index `1`, which
does not exist. -/
def dangling_constraint : compeller2D :=
  ⟨[⟨true⟩], [⟨[1], 0, 0, grad_x, grad_zero⟩], 5, 2⟩

/-! ## Loop and vector lemmas -/

theorem forLoop_empty {σ : Type} (lo hi : Nat) (h : hi ≤ lo) (body : Nat → σ → σ) (s : σ) :
    forLoop lo hi body s = s := by
  simp [forLoop, Nat.sub_eq_zero_of_le h, iterate]

theorem forLoop_succ {σ : Type} (lo hi : Nat) (h : lo ≤ hi) (body : Nat → σ → σ) (s : σ) :
    forLoop lo (hi + 1) body s = body hi (forLoop lo hi body s) := by
  unfold forLoop
  rw [Nat.succ_sub h]
  show body (lo + (hi - lo)) _ = _
  rw [Nat.add_sub_cancel' h]

/-- Loop invariant rule: an invariant that holds on entry and is kept by every
iteration holds on exit. -/
theorem forLoop_inv {σ : Type} (P : Nat → σ → Prop) (lo hi : Nat) (h : lo ≤ hi)
    (body : Nat → σ → σ) (s : σ) (h0 : P lo s)
    (hstep : ∀ i s, lo ≤ i → i < hi → P i s → P (i + 1) (body i s)) :
    P hi (forLoop lo hi body s) := by
  induction hi, h using Nat.le_induction with
  | base => rw [forLoop_empty lo lo (le_refl _)]; exact h0
  | succ n hn ih =>
    rw [forLoop_succ lo n hn]
    exact hstep n _ hn (Nat.lt_succ_self n)
      (ih (fun i s hi1 hi2 hp => hstep i s hi1 (Nat.lt_succ_of_lt hi2) hp))

theorem getD_set (l : List ℚ) (i p : Nat) (v : ℚ) :
    (l.set i v).getD p 0 = if i = p ∧ p < l.length then v else l.getD p 0 := by
  simp only [List.getD_eq_getElem?_getD, List.getElem?_set]
  by_cases h : i = p
  · subst h
    by_cases h2 : i < l.length
    · simp [h2]
    · simp [h2, List.getElem?_eq_none (not_lt.mp h2)]
  · simp [h]

theorem set_getD_self (l : List ℚ) (i : Nat) : l.set i (l.getD i 0) = l := by
  apply List.ext_getElem (by simp)
  intro n h1 h2
  rw [List.getElem_set]
  split
  · next h => subst h; rw [List.getD_eq_getElem _ _ h2]
  · rfl

theorem getD_replicate_zero (n p : Nat) : (List.replicate n (0 : ℚ)).getD p 0 = 0 := by
  simp only [List.getD_eq_getElem?_getD, List.getElem?_replicate]
  split <;> rfl

theorem flat_index_inj {n r c r2 c2 : Nat} (hc : c < n) (hc2 : c2 < n) :
    r * n + c = r2 * n + c2 ↔ r = r2 ∧ c = c2 := by
  constructor
  · intro h
    have h1 : (r * n + c) / n = (r2 * n + c2) / n := by rw [h]
    have h2 : (r * n + c) % n = (r2 * n + c2) % n := by rw [h]
    have hn : 0 < n := by omega
    rw [Nat.mul_comm r n, Nat.mul_comm r2 n, Nat.mul_add_div hn, Nat.mul_add_div hn,
      Nat.div_eq_of_lt hc, Nat.div_eq_of_lt hc2] at h1
    rw [Nat.mul_comm r n, Nat.mul_comm r2 n, Nat.mul_add_mod, Nat.mul_add_mod,
      Nat.mod_eq_of_lt hc, Nat.mod_eq_of_lt hc2] at h2
    omega
  · rintro ⟨rfl, rfl⟩; rfl

theorem flat_index_lt {n m r c : Nat} (hr : r < m) (hc : c < n) : r * n + c < m * n := by
  have : (r + 1) * n ≤ m * n := Nat.mul_le_mul_right n hr
  rw [Nat.add_mul] at this
  omega

/-- An accumulation loop `v[id] += f k` adds the sum of the `f k`. -/
theorem forLoop_accumulate (n id : Nat) (f : Nat → ℚ) (A : List ℚ) :
    forLoop 0 n (fun k A => A.set id (A.getD id 0 + f k)) A =
      A.set id (A.getD id 0 + ∑ k ∈ range n, f k) := by
  induction n with
  | zero =>
    rw [forLoop_empty 0 0 (le_refl _)]
    by_cases h : id < A.length
    · rw [sum_range_zero, add_zero, set_getD_self]
    · simp [List.set_eq_of_length_le (not_lt.mp h)]
  | succ n ih =>
    rw [forLoop_succ 0 n (Nat.zero_le _), ih, getD_set, sum_range_succ]
    by_cases h : id < A.length
    · simp [h, add_assoc]
    · simp [List.set_eq_of_length_le (not_lt.mp h)]

/-! ## The system matrix `A` -/

theorem lhs_inv (c : compeller2D) (jcb inv_masses : List ℚ) :
    (lhs c jcb inv_masses).length = c.m_constrains.length * c.m_constrains.length ∧
    ∀ r s, r < c.m_constrains.length → s < c.m_constrains.length →
      (lhs c jcb inv_masses).getD (r * c.m_constrains.length + s) 0 =
        lhs_entry (POS_PER_ENTITY * c.m_entities.length) jcb inv_masses r s := by
  set M := c.m_constrains.length with hM
  set cols := POS_PER_ENTITY * c.m_entities.length with hcols
  have key := forLoop_inv
    (fun i (A : List ℚ) => A.length = M * M ∧ ∀ r s, r < M → s < M →
      A.getD (r * M + s) 0 = if r < i then lhs_entry cols jcb inv_masses r s else 0)
    0 M (Nat.zero_le _)
    (fun i A => forLoop 0 M (fun j A =>
      forLoop 0 cols (fun k A => A.set (i * M + j) (A.getD (i * M + j) 0 +
        jcb.getD (i * cols + k) 0 * jcb.getD (j * cols + k) 0 * inv_masses.getD k 0)) A) A)
    (List.replicate (M * M) 0)
    (by
      refine ⟨by simp, fun r s hr hs => ?_⟩
      rw [getD_replicate_zero]; simp)
    (by
      intro i A _ hi ⟨hlen, hA⟩
      have mid := forLoop_inv
        (fun j (A : List ℚ) => A.length = M * M ∧ ∀ r s, r < M → s < M →
          A.getD (r * M + s) 0 =
            if r < i ∨ (r = i ∧ s < j) then lhs_entry cols jcb inv_masses r s else 0)
        0 M (Nat.zero_le _)
        (fun j A => forLoop 0 cols (fun k A => A.set (i * M + j) (A.getD (i * M + j) 0 +
          jcb.getD (i * cols + k) 0 * jcb.getD (j * cols + k) 0 * inv_masses.getD k 0)) A)
        A
        (by
          refine ⟨hlen, fun r s hr hs => ?_⟩
          rw [hA r s hr hs]
          simp)
        (by
          intro j B _ hj ⟨hlenB, hB⟩
          beta_reduce
          rw [forLoop_accumulate cols (i * M + j) (fun k => jcb.getD (i * cols + k) 0 *
            jcb.getD (j * cols + k) 0 * inv_masses.getD k 0) B]
          refine ⟨by simpa using hlenB, fun r s hr hs => ?_⟩
          by_cases h : i = r ∧ j = s
          · obtain ⟨rfl, rfl⟩ := h
            have hlt : i * M + j < B.length := hlenB ▸ flat_index_lt hi hj
            rw [getD_set, if_pos ⟨rfl, hlt⟩, hB i j hi hj]
            simp [lhs_entry]
          · rw [getD_set, if_neg (fun hh => h ((flat_index_inj hj hs).1 hh.1)), hB r s hr hs]
            have : (r < i ∨ r = i ∧ s < j) ↔ (r < i ∨ r = i ∧ s < j + 1) := by omega
            simp only [this])
      refine ⟨mid.1, fun r s hr hs => ?_⟩
      rw [mid.2 r s hr hs]
      have : (r < i ∨ r = i ∧ s < M) ↔ r < i + 1 := by omega
      simp only [this])
  refine ⟨key.1, fun r s hr hs => ?_⟩
  have := key.2 r s hr hs
  rw [if_pos hr] at this
  exact this

/-! ## The right-hand side `b` -/

/-- A loop that only rewrites one cell of a vector from its own old value is a
loop on that cell. -/
theorem forLoop_cell (n id : Nat) (g : Nat → ℚ → ℚ) (A : List ℚ) :
    forLoop 0 n (fun k A => A.set id (g k (A.getD id 0))) A =
      A.set id (forLoop 0 n g (A.getD id 0)) := by
  induction n with
  | zero => rw [forLoop_empty 0 0 (le_refl _), forLoop_empty 0 0 (le_refl _), set_getD_self]
  | succ n ih =>
    rw [forLoop_succ 0 n (Nat.zero_le _), forLoop_succ 0 n (Nat.zero_le _), ih, getD_set]
    by_cases h : id < A.length
    · simp [h]
    · simp [List.set_eq_of_length_le (not_lt.mp h)]

theorem forLoop_add (n : Nat) (f : Nat → ℚ) (v : ℚ) :
    forLoop 0 n (fun k s => s + f k) v = v + ∑ k ∈ range n, f k := by
  induction n with
  | zero => simp [forLoop_empty]
  | succ n ih => rw [forLoop_succ 0 n (Nat.zero_le _), ih, sum_range_succ, add_assoc]

theorem forLoop_sub (n : Nat) (f : Nat → ℚ) (v : ℚ) :
    forLoop 0 n (fun k s => s - f k) v = v - ∑ k ∈ range n, f k := by
  induction n with
  | zero => simp [forLoop_empty]
  | succ n ih => rw [forLoop_succ 0 n (Nat.zero_le _), ih, sum_range_succ]; ring

theorem rhs_body (c : compeller2D) (jcb djcb stchanges inv_masses : List ℚ) (i : Nat)
    (b : List ℚ) :
    forLoop 0 c.m_entities.length (fun j b =>
      forLoop 0 POS_PER_ENTITY (fun k b =>
        b.set i (b.getD i 0 -
          (djcb.getD (i * (POS_PER_ENTITY * c.m_entities.length) + (j * POS_PER_ENTITY + k)) 0 *
              stchanges.getD (j * VAR_PER_ENTITY + k) 0 +
            jcb.getD (i * (POS_PER_ENTITY * c.m_entities.length) + (j * POS_PER_ENTITY + k)) 0 *
              stchanges.getD (j * VAR_PER_ENTITY + k + POS_PER_ENTITY) 0) *
          inv_masses.getD (j * POS_PER_ENTITY + k) 0)) b) b =
    b.set i (b.getD i 0 - ∑ j ∈ range c.m_entities.length, ∑ k ∈ range POS_PER_ENTITY,
      rhs_term (POS_PER_ENTITY * c.m_entities.length) jcb djcb stchanges inv_masses i j k) := by
  have inner : ∀ j (b : List ℚ), forLoop 0 POS_PER_ENTITY (fun k b =>
        b.set i (b.getD i 0 -
          (djcb.getD (i * (POS_PER_ENTITY * c.m_entities.length) + (j * POS_PER_ENTITY + k)) 0 *
              stchanges.getD (j * VAR_PER_ENTITY + k) 0 +
            jcb.getD (i * (POS_PER_ENTITY * c.m_entities.length) + (j * POS_PER_ENTITY + k)) 0 *
              stchanges.getD (j * VAR_PER_ENTITY + k + POS_PER_ENTITY) 0) *
          inv_masses.getD (j * POS_PER_ENTITY + k) 0)) b =
      b.set i (b.getD i 0 - ∑ k ∈ range POS_PER_ENTITY,
        rhs_term (POS_PER_ENTITY * c.m_entities.length) jcb djcb stchanges inv_masses i j k) := by
    intro j b
    exact (forLoop_cell POS_PER_ENTITY i (fun k v => v -
      rhs_term (POS_PER_ENTITY * c.m_entities.length) jcb djcb stchanges inv_masses i j k) b).trans
      (by rw [forLoop_sub])
  simp only [inner]
  rw [forLoop_cell c.m_entities.length i (fun j v => v - ∑ k ∈ range POS_PER_ENTITY,
      rhs_term (POS_PER_ENTITY * c.m_entities.length) jcb djcb stchanges inv_masses i j k) b,
    forLoop_sub]

theorem rhs_inv (c : compeller2D) (jcb djcb stchanges inv_masses : List ℚ) :
    (rhs c jcb djcb stchanges inv_masses).length = c.m_constrains.length ∧
    ∀ r, r < c.m_constrains.length →
      (rhs c jcb djcb stchanges inv_masses).getD r 0 =
        rhs_entry c jcb djcb stchanges inv_masses r := by
  have key := forLoop_inv
    (fun i (b : List ℚ) => b.length = c.m_constrains.length ∧ ∀ r, r < c.m_constrains.length →
      b.getD r 0 = if r < i then rhs_entry c jcb djcb stchanges inv_masses r else 0)
    0 c.m_constrains.length (Nat.zero_le _)
    (fun i b =>
      (b.set i (b.getD i 0 - ∑ j ∈ range c.m_entities.length, ∑ k ∈ range POS_PER_ENTITY,
        rhs_term (POS_PER_ENTITY * c.m_entities.length) jcb djcb stchanges inv_masses i j k)).set i
        ((b.set i (b.getD i 0 - ∑ j ∈ range c.m_entities.length, ∑ k ∈ range POS_PER_ENTITY,
          rhs_term (POS_PER_ENTITY * c.m_entities.length) jcb djcb stchanges inv_masses i j k)).getD
            i 0 -
          (c.m_stiffness * (c.m_constrains.getD i default).value +
            c.m_dampening * (c.m_constrains.getD i default).derivative)))
    (List.replicate c.m_constrains.length 0)
    (by
      refine ⟨by simp, fun r _ => ?_⟩
      rw [getD_replicate_zero]; simp)
    (by
      intro i b _ hi ⟨hlen, hb⟩
      refine ⟨by simpa using hlen, fun r hr => ?_⟩
      have hib : i < b.length := hlen ▸ hi
      by_cases h : i = r
      · subst h
        rw [getD_set, if_pos ⟨rfl, by simpa using hib⟩, getD_set, if_pos ⟨rfl, hib⟩, hb i hi]
        simp [rhs_entry]
      · rw [getD_set, if_neg (fun hh => h hh.1), getD_set, if_neg (fun hh => h hh.1), hb r hr]
        have : r < i ↔ r < i + 1 := by omega
        simp only [this])
  have hrhs : rhs c jcb djcb stchanges inv_masses = forLoop 0 c.m_constrains.length
      (fun i b =>
      (b.set i (b.getD i 0 - ∑ j ∈ range c.m_entities.length, ∑ k ∈ range POS_PER_ENTITY,
        rhs_term (POS_PER_ENTITY * c.m_entities.length) jcb djcb stchanges inv_masses i j k)).set i
        ((b.set i (b.getD i 0 - ∑ j ∈ range c.m_entities.length, ∑ k ∈ range POS_PER_ENTITY,
          rhs_term (POS_PER_ENTITY * c.m_entities.length) jcb djcb stchanges inv_masses i j k)).getD
            i 0 -
          (c.m_stiffness * (c.m_constrains.getD i default).value +
            c.m_dampening * (c.m_constrains.getD i default).derivative)))
      (List.replicate c.m_constrains.length 0) := by
    unfold rhs
    simp only [rhs_body]
  rw [hrhs]
  refine ⟨key.1, fun r hr => ?_⟩
  have := key.2 r hr
  rw [if_pos hr] at this
  exact this

/-! ## The Jacobian layout -/

theorem write3_length (cm : List ℚ) (base : Nat) (g : Nat → ℚ) :
    (forLoop 0 3 (fun k cm => cm.set (base + k) (g k)) cm).length = cm.length := by
  simp [forLoop, iterate]

theorem write3_getD (cm : List ℚ) (base p : Nat) (g : Nat → ℚ) :
    (forLoop 0 3 (fun k cm => cm.set (base + k) (g k)) cm).getD p 0 =
      if base ≤ p ∧ p < base + 3 ∧ p < cm.length then g (p - base) else cm.getD p 0 := by
  simp only [forLoop, iterate, getD_set, List.length_set, Nat.sub_zero, Nat.zero_add, Nat.add_zero]
  by_cases h2 : base + 2 = p
  · subst h2
    by_cases hl : base + 2 < cm.length
    · simp [hl]
    · simp [hl]
  · by_cases h1 : base + 1 = p
    · subst h1
      by_cases hl : base + 1 < cm.length
      · simp [hl]
      · simp [hl]
    · by_cases h0 : base = p
      · subst h0
        by_cases hl : base < cm.length
        · simp [hl]
        · simp [hl]
      · have : ¬ (base ≤ p ∧ p < base + 3 ∧ p < cm.length) := by omega
        simp [h2, h1, h0, this]

theorem constrain_matrix_inv (c : compeller2D) (grad : constrain_interface → Nat → Nat → ℚ)
    (hidx : ∀ r, r < c.m_constrains.length →
      ∀ e ∈ (c.m_constrains.getD r default).entities, e < c.m_entities.length) :
    (constrain_matrix c grad).length =
        c.m_constrains.length * (3 * c.m_entities.length) ∧
    ∀ r k d, r < c.m_constrains.length → k < c.m_entities.length → d < 3 →
      (constrain_matrix c grad).getD
        (r * (3 * c.m_entities.length) + (k * 3 + d)) 0 =
        cm_entry c grad r k d := by
  set M := c.m_constrains.length with hM
  set N := c.m_entities.length with hN
  set cols := 3 * N with hcols
  have key := forLoop_inv
    (fun i (cm : List ℚ) => cm.length = M * cols ∧ ∀ r k d, r < M → k < N → d < 3 →
      cm.getD (r * cols + (k * 3 + d)) 0 = if r < i then cm_entry c grad r k d else 0)
    0 M (Nat.zero_le _)
    (fun i cmatrix =>
      forLoop 0 (c.m_constrains.getD i default).entities.length (fun j cmatrix =>
        forLoop 0 3 (fun k cmatrix =>
          cmatrix.set (i * cols + (c.m_constrains.getD i default).entities.getD j 0 *
            3 + k)
            (grad (c.m_constrains.getD i default)
              ((c.m_constrains.getD i default).entities.getD j 0) k)) cmatrix) cmatrix)
    (List.replicate (M * cols) 0)
    (by
      refine ⟨by simp, fun r k d _ _ _ => ?_⟩
      rw [getD_replicate_zero]; simp)
    (by
      intro i cm _ hi ⟨hlen, hcm⟩
      beta_reduce
      have hE := hidx i hi
      have hent : ∀ k d, cm_entry c grad i k d =
          if k ∈ (c.m_constrains.getD i default).entities then
            grad (c.m_constrains.getD i default) k d else 0 := fun _ _ => rfl
      generalize (c.m_constrains.getD i default) = ci at hE hent ⊢
      have mid := forLoop_inv
        (fun j (cm : List ℚ) => cm.length = M * cols ∧
          ∀ r k d, r < M → k < N → d < 3 →
            cm.getD (r * cols + (k * 3 + d)) 0 =
              if r < i then cm_entry c grad r k d
              else if r = i ∧ k ∈ ci.entities.take j then grad ci k d else 0)
        0 ci.entities.length (Nat.zero_le _)
        (fun j cmatrix =>
          forLoop 0 3 (fun k cmatrix =>
            cmatrix.set (i * cols + ci.entities.getD j 0 * 3 + k)
              (grad ci (ci.entities.getD j 0) k)) cmatrix)
        cm
        (by
          refine ⟨hlen, fun r k d hr hk hd => ?_⟩
          rw [hcm r k d hr hk hd]
          simp)
        (by
          intro j B _ hj ⟨hlenB, hB⟩
          have hej : ci.entities.getD j 0 = ci.entities[j] := List.getD_eq_getElem _ _ hj
          have heN : ci.entities[j] < N := hE _ (List.getElem_mem _)
          beta_reduce
          rw [hej]
          refine ⟨by rw [write3_length]; exact hlenB, fun r k d hr hk hd => ?_⟩
          rw [write3_getD, hB r k d hr hk hd, hlenB]
          have hc1 : k * 3 + d < cols := by omega
          have hlt : r * cols + (k * 3 + d) < M * cols := flat_index_lt hr hc1
          have htake : k ∈ ci.entities.take (j + 1) ↔ k ∈ ci.entities.take j ∨ k = ci.entities[j] := by
            rw [List.take_succ, List.getElem?_eq_getElem hj, List.mem_append]
            simp
          by_cases hrk : r = i ∧ k = ci.entities[j]
          · obtain ⟨rfl, rfl⟩ := hrk
            have hcond : r * cols + ci.entities[j] * 3 ≤
                r * cols + (ci.entities[j] * 3 + d) ∧
              r * cols + (ci.entities[j] * 3 + d) <
                r * cols + ci.entities[j] * 3 + 3 ∧
              r * cols + (ci.entities[j] * 3 + d) < M * cols := by
              refine ⟨by omega, by omega, hlt⟩
            rw [if_pos hcond, if_neg (lt_irrefl _), if_pos ⟨rfl, htake.2 (Or.inr rfl)⟩]
            congr 1
            omega
          · have hcond : ¬ (i * cols + ci.entities[j] * 3 ≤
                r * cols + (k * 3 + d) ∧
              r * cols + (k * 3 + d) <
                i * cols + ci.entities[j] * 3 + 3 ∧
              r * cols + (k * 3 + d) < M * cols) := by
              rintro ⟨h1, h2, -⟩
              apply hrk
              obtain ⟨q, hq⟩ : ∃ q, q = r * cols + (k * 3 + d) -
                  (i * cols + ci.entities[j] * 3) := ⟨_, rfl⟩
              have hq3 : q < 3 := by omega
              have heq : r * cols + (k * 3 + d) =
                  i * cols + (ci.entities[j] * 3 + q) := by omega
              have hc2 : ci.entities[j] * 3 + q < cols := by omega
              have := (flat_index_inj hc1 hc2).1 heq
              omega
            rw [if_neg hcond]
            by_cases hri : r < i
            · simp [hri]
            · rw [if_neg hri, if_neg hri]
              have : (r = i ∧ k ∈ ci.entities.take (j + 1)) ↔ (r = i ∧ k ∈ ci.entities.take j) := by
                rw [htake]
                constructor
                · rintro ⟨h1, h2 | h2⟩
                  · exact ⟨h1, h2⟩
                  · exact absurd ⟨h1, h2⟩ hrk
                · rintro ⟨h1, h2⟩
                  exact ⟨h1, Or.inl h2⟩
              simp only [this])
      refine ⟨mid.1, fun r k d hr hk hd => ?_⟩
      rw [mid.2 r k d hr hk hd, List.take_length]
      by_cases hri : r < i
      · simp [hri, Nat.lt_succ_of_lt hri]
      · by_cases hri2 : r = i
        · subst hri2
          simp [hent]
        · have : ¬ r < i + 1 := by omega
          simp [hri, hri2, this])
  refine ⟨key.1, fun r k d hr hk hd => ?_⟩
  have := key.2 r k d hr hk hd
  rw [if_pos hr] at this
  exact this

/-! ## Loading the constraint accelerations -/

theorem load_inner (rows : Nat) (jcb lambda : List ℚ) (i j : Nat) (st : List ℚ) :
    forLoop 0 rows (fun k stchanges =>
      stchanges.set (6 * i + j + 3) (stchanges.getD (6 * i + j + 3) 0 +
        jcb.getD ((i * 3 + j) * rows + k) 0 * lambda.getD k 0)) st =
      st.set (6 * i + j + 3) (st.getD (6 * i + j + 3) 0 + load_term rows jcb lambda i j) := by
  exact (forLoop_cell rows (6 * i + j + 3) (fun k v => v +
    jcb.getD ((i * 3 + j) * rows + k) 0 * lambda.getD k 0) st).trans (by rw [forLoop_add]; rfl)

theorem load_body_length (rows : Nat) (jcb lambda : List ℚ) (i : Nat) (st : List ℚ) :
    (forLoop 0 3 (fun j stchanges =>
      forLoop 0 rows (fun k stchanges =>
        stchanges.set (6 * i + j + 3) (stchanges.getD (6 * i + j + 3) 0 +
          jcb.getD ((i * 3 + j) * rows + k) 0 * lambda.getD k 0)) stchanges) st).length =
      st.length := by
  simp only [load_inner]
  simp [forLoop, iterate]

theorem load_body_getD (rows : Nat) (jcb lambda : List ℚ) (i p : Nat) (st : List ℚ) :
    (forLoop 0 3 (fun j stchanges =>
      forLoop 0 rows (fun k stchanges =>
        stchanges.set (6 * i + j + 3) (stchanges.getD (6 * i + j + 3) 0 +
          jcb.getD ((i * 3 + j) * rows + k) 0 * lambda.getD k 0)) stchanges) st).getD p 0 =
      if p / 6 = i ∧ 3 ≤ p % 6 ∧ p < st.length then
        st.getD p 0 + load_term rows jcb lambda i (p % 6 - 3)
      else st.getD p 0 := by
  simp only [load_inner]
  simp only [forLoop, iterate, getD_set, List.length_set, Nat.sub_zero, Nat.zero_add,
    Nat.add_zero]
  by_cases h2 : 6 * i + 2 + 3 = p
  · subst h2
    have e1 : (6 * i + 2 + 3) / 6 = i := by omega
    have e2 : (6 * i + 2 + 3) % 6 - 3 = 2 := by omega
    have e3 : 3 ≤ (6 * i + 2 + 3) % 6 := by omega
    by_cases hl : 6 * i + 2 + 3 < st.length
    · simp [hl, e1, e2, e3]
    · simp [hl]
  · by_cases h1 : 6 * i + 1 + 3 = p
    · subst h1
      have e1 : (6 * i + 1 + 3) / 6 = i := by omega
      have e2 : (6 * i + 1 + 3) % 6 - 3 = 1 := by omega
      have e3 : 3 ≤ (6 * i + 1 + 3) % 6 := by omega
      by_cases hl : 6 * i + 1 + 3 < st.length
      · simp [hl, e1, e2, e3]
      · simp [hl]
    · by_cases h0 : 6 * i + 3 = p
      · subst h0
        have e1 : (6 * i + 3) / 6 = i := by omega
        have e2 : (6 * i + 3) % 6 - 3 = 0 := by omega
        have e3 : 3 ≤ (6 * i + 3) % 6 := by omega
        by_cases hl : 6 * i + 3 < st.length
        · simp [hl, e1, e2, e3]
        · simp [hl]
      · have : ¬ (p / 6 = i ∧ 3 ≤ p % 6 ∧ p < st.length) := by omega
        simp [h2, h1, h0, this]

/-- What `load_constrain_accels` leaves in every cell `p` of `stchanges`. -/
theorem load_constrain_accels_getD (c : compeller2D) (jcb lambda stchanges : List ℚ) :
    (load_constrain_accels c jcb lambda stchanges).length = stchanges.length ∧
    ∀ p, (load_constrain_accels c jcb lambda stchanges).getD p 0 =
      if p / 6 < c.m_entities.length ∧ 3 ≤ p % 6 ∧
          (c.m_entities.getD (p / 6) ⟨false⟩).dynamic = true ∧ p < stchanges.length then
        stchanges.getD p 0 + load_term c.m_constrains.length jcb lambda (p / 6) (p % 6 - 3)
      else stchanges.getD p 0 := by
  have key := forLoop_inv
    (fun i (s : List ℚ) => s.length = stchanges.length ∧ ∀ p, s.getD p 0 =
      if p / 6 < i ∧ 3 ≤ p % 6 ∧
          (c.m_entities.getD (p / 6) ⟨false⟩).dynamic = true ∧ p < stchanges.length then
        stchanges.getD p 0 + load_term c.m_constrains.length jcb lambda (p / 6) (p % 6 - 3)
      else stchanges.getD p 0)
    0 c.m_entities.length (Nat.zero_le _)
    (fun i stchanges =>
      if (c.m_entities.getD i ⟨false⟩).dynamic then
        forLoop 0 3 (fun j stchanges =>
          forLoop 0 c.m_constrains.length (fun k stchanges =>
            stchanges.set (6 * i + j + 3) (stchanges.getD (6 * i + j + 3) 0 +
              jcb.getD ((i * 3 + j) * c.m_constrains.length + k) 0 * lambda.getD k 0))
            stchanges) stchanges
      else stchanges)
    stchanges
    (by simp)
    (by
      intro i s _ _ ⟨hlen, hs⟩
      beta_reduce
      by_cases hd : (c.m_entities.getD i ⟨false⟩).dynamic = true
      · rw [if_pos hd]
        refine ⟨by rw [load_body_length]; exact hlen, fun p => ?_⟩
        rw [load_body_getD, hs p, hlen]
        by_cases hp : p / 6 = i
        · subst hp
          have n0 : ¬ (p / 6 < p / 6 ∧ 3 ≤ p % 6 ∧
              (c.m_entities.getD (p / 6) ⟨false⟩).dynamic = true ∧ p < stchanges.length) :=
            fun h => lt_irrefl _ h.1
          by_cases h3 : 3 ≤ p % 6 ∧ p < stchanges.length
          · rw [if_pos ⟨rfl, h3⟩, if_neg n0, if_pos ⟨Nat.lt_succ_self _, h3.1, hd, h3.2⟩]
          · have n1 : ¬ (p / 6 = p / 6 ∧ 3 ≤ p % 6 ∧ p < stchanges.length) := fun h => h3 h.2
            have n2 : ¬ (p / 6 < p / 6 + 1 ∧ 3 ≤ p % 6 ∧
                (c.m_entities.getD (p / 6) ⟨false⟩).dynamic = true ∧ p < stchanges.length) :=
              fun h => h3 ⟨h.2.1, h.2.2.2⟩
            rw [if_neg n1, if_neg n0, if_neg n2]
        · have n1 : ¬ (p / 6 = i ∧ 3 ≤ p % 6 ∧ p < stchanges.length) := fun h => hp h.1
          rw [if_neg n1]
          have : p / 6 < i ↔ p / 6 < i + 1 := by omega
          simp only [this]
      · rw [if_neg hd]
        refine ⟨hlen, fun p => ?_⟩
        rw [hs p]
        by_cases hp : p / 6 = i
        · subst hp
          rw [if_neg (fun h => lt_irrefl _ h.1), if_neg (fun h => hd h.2.2.1)]
        · have : p / 6 < i ↔ p / 6 < i + 1 := by omega
          simp only [this])
  exact key

/-! ## Back-substitution: the unsigned counter -/

theorem forLoop_add_Ico (lo hi : Nat) (f : Nat → ℚ) (v : ℚ) :
    forLoop lo hi (fun k s => s + f k) v = v + ∑ k ∈ Ico lo hi, f k := by
  by_cases h : lo ≤ hi
  · induction hi, h using Nat.le_induction with
    | base => simp [forLoop_empty]
    | succ n hn ih => rw [forLoop_succ lo n hn, ih, sum_Ico_succ_top hn, add_assoc]
  · rw [forLoop_empty lo hi (by omega), Ico_eq_empty (by omega)]
    simp

theorem forLoop_sub_Ico (lo hi : Nat) (f : Nat → ℚ) (v : ℚ) :
    forLoop lo hi (fun k s => s - f k) v = v - ∑ k ∈ Ico lo hi, f k := by
  by_cases h : lo ≤ hi
  · induction hi, h using Nat.le_induction with
    | base => simp [forLoop_empty]
    | succ n hn ih => rw [forLoop_succ lo n hn, ih, sum_Ico_succ_top hn]; ring
  · rw [forLoop_empty lo hi (by omega), Ico_eq_empty (by omega)]
    simp

/-- With the counter at `n - 1` (modulo `SIZE_T`), the loop runs the `n`
iterations `n - 1, ..., 0` and then ends, the counter having wrapped to
`SIZE_T - 1`, which is not below `size`. -/
theorem lu_backward_eq (size : Nat) (U : List ℚ) (hsize : size < SIZE_T) :
    ∀ (n fuel : Nat) (sol : List ℚ), n ≤ size → n < fuel →
      lu_backward size U fuel ((n + SIZE_T - 1) % SIZE_T) sol = some (back_steps size U n sol) := by
  intro n
  induction n with
  | zero =>
    intro fuel sol _ hf
    obtain ⟨f, rfl⟩ : ∃ f, fuel = f + 1 := ⟨fuel - 1, by omega⟩
    have hc : (0 + SIZE_T - 1) % SIZE_T = SIZE_T - 1 := by
      simp only [SIZE_T]; norm_num
    rw [hc, lu_backward, if_neg (by omega)]
    rfl
  | succ n ih =>
    intro fuel sol hn hf
    obtain ⟨f, rfl⟩ : ∃ f, fuel = f + 1 := ⟨fuel - 1, by omega⟩
    have hc : (n + 1 + SIZE_T - 1) % SIZE_T = n := by
      have : n + 1 + SIZE_T - 1 = n + SIZE_T := by omega
      rw [this, Nat.add_mod_right, Nat.mod_eq_of_lt (by omega)]
    rw [hc, lu_backward, if_pos (by omega)]
    simp only [forLoop_sub_Ico]
    rw [show back_steps size U (n + 1) sol = back_steps size U n (back_body size U n sol) from rfl]
    exact ih f _ (by omega) (by omega)

theorem back_body_length (size : Nat) (U : List ℚ) (i : Nat) (sol : List ℚ) :
    (back_body size U i sol).length = sol.length := by
  simp [back_body]

theorem back_steps_length (size : Nat) (U : List ℚ) (n : Nat) (sol : List ℚ) :
    (back_steps size U n sol).length = sol.length := by
  induction n generalizing sol with
  | zero => rfl
  | succ n ih => rw [back_steps, ih, back_body_length]

theorem lu_forward_length (size : Nat) (L b : List ℚ) :
    (lu_forward size L b).length = size := by
  have key := forLoop_inv (fun _ (sol : List ℚ) => sol.length = size) 0 size (Nat.zero_le _)
    (fun i sol => sol.set i
      (forLoop 0 i (fun j val => val - L.getD (i * size + j) 0 * sol.getD j 0) (b.getD i 0) /
        L.getD (i * size + i) 0))
    (List.replicate size 0) (by simp) (by intro i s _ _ h; simpa using h)
  exact key

/-- The solver always ends: with more fuel than constraints, `lu_decomposition`
returns a vector with one entry per constraint, whatever the pivots are. -/
theorem lu_decomposition_total (fuel : Nat) (c : compeller2D) (A b : List ℚ)
    (hsize : c.m_constrains.length < SIZE_T) (hfuel : c.m_constrains.length < fuel) :
    lu_decomposition fuel c A b =
      some (back_steps c.m_constrains.length (lu_factor c.m_constrains.length A).2
        c.m_constrains.length
        (lu_forward c.m_constrains.length (lu_factor c.m_constrains.length A).1 b)) := by
  unfold lu_decomposition
  exact lu_backward_eq _ _ hsize _ _ _ (le_refl _) hfuel

/-! ## The Doolittle factorisation -/

/-- The loop that fills row `i` of `U`. -/
theorem lu_row (n : Nat) (A L U : List ℚ) (i : Nat) (hi : i < n) (hU : U.length = n * n) :
    (forLoop i n (fun j U =>
      U.set (i * n + j) (A.getD (i * n + j) 0 - forLoop 0 i (fun k sum =>
        sum + L.getD (i * n + k) 0 * U.getD (k * n + j) 0) 0)) U).length = n * n ∧
    ∀ r j, r < n → j < n →
      (forLoop i n (fun j U =>
        U.set (i * n + j) (A.getD (i * n + j) 0 - forLoop 0 i (fun k sum =>
          sum + L.getD (i * n + k) 0 * U.getD (k * n + j) 0) 0)) U).getD (r * n + j) 0 =
      if r = i ∧ i ≤ j then
        A.getD (i * n + j) 0 - ∑ k ∈ range i, L.getD (i * n + k) 0 * U.getD (k * n + j) 0
      else U.getD (r * n + j) 0 := by
  have key := forLoop_inv
    (fun j1 (Uc : List ℚ) => Uc.length = n * n ∧ ∀ r j, r < n → j < n →
      Uc.getD (r * n + j) 0 =
        if r = i ∧ i ≤ j ∧ j < j1 then
          A.getD (i * n + j) 0 - ∑ k ∈ range i, L.getD (i * n + k) 0 * U.getD (k * n + j) 0
        else U.getD (r * n + j) 0)
    i n (le_of_lt hi)
    (fun j U =>
      U.set (i * n + j) (A.getD (i * n + j) 0 - forLoop 0 i (fun k sum =>
        sum + L.getD (i * n + k) 0 * U.getD (k * n + j) 0) 0))
    U
    (by
      refine ⟨hU, fun r j _ _ => ?_⟩
      rw [if_neg (by omega)])
    (by
      intro j Uc hij hj ⟨hlen, hUc⟩
      beta_reduce
      refine ⟨by simpa using hlen, fun r s hr hs => ?_⟩
      rw [forLoop_add, zero_add]
      by_cases h : i = r ∧ j = s
      · obtain ⟨rfl, rfl⟩ := h
        have hlt : i * n + j < Uc.length := hlen ▸ flat_index_lt hi hj
        rw [getD_set, if_pos ⟨rfl, hlt⟩, if_pos ⟨rfl, hij, Nat.lt_succ_self _⟩]
        congr 1
        apply sum_congr rfl
        intro k hk
        rw [mem_range] at hk
        rw [hUc k j (by omega) hj, if_neg (by omega)]
      · rw [getD_set, if_neg (fun hh => h ((flat_index_inj hj hs).1 hh.1)), hUc r s hr hs]
        have : (r = i ∧ i ≤ s ∧ s < j) ↔ (r = i ∧ i ≤ s ∧ s < j + 1) := by omega
        simp only [this])
  refine ⟨key.1, fun r j hr hj => ?_⟩
  rw [key.2 r j hr hj]
  have : (r = i ∧ i ≤ j ∧ j < n) ↔ (r = i ∧ i ≤ j) := by omega
  simp only [this]

/-- The loop that fills column `i` of `L`, after `L[i][i] = 1`. -/
theorem lu_col (n : Nat) (A L U : List ℚ) (i : Nat) (hi : i < n) (hL : L.length = n * n) :
    (forLoop (i + 1) n (fun j L =>
      L.set (j * n + i) ((A.getD (j * n + i) 0 - forLoop 0 i (fun k sum =>
        sum + L.getD (j * n + k) 0 * U.getD (k * n + i) 0) 0) / U.getD (i * n + i) 0))
      (L.set (i * n + i) 1)).length = n * n ∧
    ∀ r s, r < n → s < n →
      (forLoop (i + 1) n (fun j L =>
        L.set (j * n + i) ((A.getD (j * n + i) 0 - forLoop 0 i (fun k sum =>
          sum + L.getD (j * n + k) 0 * U.getD (k * n + i) 0) 0) / U.getD (i * n + i) 0))
        (L.set (i * n + i) 1)).getD (r * n + s) 0 =
      if s = i ∧ r = i then 1
      else if s = i ∧ i < r then
        (A.getD (r * n + i) 0 - ∑ k ∈ range i, L.getD (r * n + k) 0 * U.getD (k * n + i) 0) /
          U.getD (i * n + i) 0
      else L.getD (r * n + s) 0 := by
  have key := forLoop_inv
    (fun j1 (Lc : List ℚ) => Lc.length = n * n ∧ ∀ r s, r < n → s < n →
      Lc.getD (r * n + s) 0 =
        if s = i ∧ r = i then 1
        else if s = i ∧ i < r ∧ r < j1 then
          (A.getD (r * n + i) 0 - ∑ k ∈ range i, L.getD (r * n + k) 0 * U.getD (k * n + i) 0) /
            U.getD (i * n + i) 0
        else L.getD (r * n + s) 0)
    (i + 1) n hi
    (fun j L =>
      L.set (j * n + i) ((A.getD (j * n + i) 0 - forLoop 0 i (fun k sum =>
        sum + L.getD (j * n + k) 0 * U.getD (k * n + i) 0) 0) / U.getD (i * n + i) 0))
    (L.set (i * n + i) 1)
    (by
      refine ⟨by simpa using hL, fun r s hr hs => ?_⟩
      by_cases h : i = r ∧ i = s
      · obtain ⟨rfl, rfl⟩ := h
        have hlt : i * n + i < L.length := hL ▸ flat_index_lt hi hi
        rw [getD_set, if_pos ⟨rfl, hlt⟩, if_pos ⟨rfl, rfl⟩]
      · rw [getD_set, if_neg (fun hh => h ((flat_index_inj hi hs).1 hh.1)),
          if_neg (by omega), if_neg (by omega)])
    (by
      intro j Lc hij hj ⟨hlen, hLc⟩
      beta_reduce
      refine ⟨by simpa using hlen, fun r s hr hs => ?_⟩
      rw [forLoop_add, zero_add]
      by_cases h : j = r ∧ i = s
      · obtain ⟨rfl, rfl⟩ := h
        have hlt : j * n + i < Lc.length := hlen ▸ flat_index_lt hj hi
        rw [getD_set, if_pos ⟨rfl, hlt⟩, if_neg (by omega), if_pos ⟨rfl, hij, Nat.lt_succ_self _⟩]
        congr 2
        apply sum_congr rfl
        intro k hk
        rw [mem_range] at hk
        rw [hLc j k hj (by omega), if_neg (by omega), if_neg (by omega)]
      · rw [getD_set, if_neg (fun hh => h ((flat_index_inj hi hs).1 hh.1)), hLc r s hr hs]
        have : (s = i ∧ i < r ∧ r < j) ↔ (s = i ∧ i < r ∧ r < j + 1) := by omega
        simp only [this])
  refine ⟨key.1, fun r s hr hs => ?_⟩
  rw [key.2 r s hr hs]
  have : (s = i ∧ i < r ∧ r < n) ↔ (s = i ∧ i < r) := by omega
  simp only [this]

theorem lu_factor_inv (n : Nat) (A : List ℚ) : lu_inv n A n (lu_factor n A) := by
  apply forLoop_inv (lu_inv n A) 0 n (Nat.zero_le _)
  · refine ⟨by simp, by simp, ?_, ?_, ?_, ?_, ?_⟩
    · intro r j hr; omega
    · intro r hr; omega
    · intro r j hr; omega
    · intro r j _ _ _; exact getD_replicate_zero _ _
    · intro r j _ _ _; exact getD_replicate_zero _ _
  · rintro i ⟨L, U⟩ _ hi ⟨hL, hU, h1, h2, h3, h4, h5⟩
    simp only at hL hU h1 h2 h3 h4 h5
    dsimp only
    obtain ⟨hU1, hU2⟩ := lu_row n A L U i hi hU
    generalize forLoop i n (fun j U =>
      U.set (i * n + j) (A.getD (i * n + j) 0 - forLoop 0 i (fun k sum =>
        sum + L.getD (i * n + k) 0 * U.getD (k * n + j) 0) 0)) U = U1 at hU1 hU2 ⊢
    obtain ⟨hL1, hL2⟩ := lu_col n A L U1 i hi hL
    generalize forLoop (i + 1) n (fun j L =>
      L.set (j * n + i) ((A.getD (j * n + i) 0 - forLoop 0 i (fun k sum =>
        sum + L.getD (j * n + k) 0 * U1.getD (k * n + i) 0) 0) / U1.getD (i * n + i) 0))
      (L.set (i * n + i) 1) = L1 at hL1 hL2 ⊢
    refine ⟨hL1, hU1, ?_, ?_, ?_, ?_, ?_⟩
    · intro r j hr hrj hj
      show U1.getD (r * n + j) 0 = A.getD (r * n + j) 0 -
        ∑ k ∈ range r, L1.getD (r * n + k) 0 * U1.getD (k * n + j) 0
      have hsum : ∑ k ∈ range r, L1.getD (r * n + k) 0 * U1.getD (k * n + j) 0 =
          ∑ k ∈ range r, L.getD (r * n + k) 0 * U.getD (k * n + j) 0 := by
        apply sum_congr rfl
        intro k hk
        rw [mem_range] at hk
        rw [hL2 r k (by omega) (by omega), if_neg (by omega), if_neg (by omega),
          hU2 k j (by omega) hj, if_neg (by omega)]
      rw [hsum, hU2 r j (by omega) hj]
      by_cases hri : r = i
      · subst hri
        rw [if_pos ⟨rfl, hrj⟩]
      · rw [if_neg (fun h => hri h.1)]
        exact h1 r j (by omega) hrj hj
    · intro r hr hrn
      show L1.getD (r * n + r) 0 = 1
      rw [hL2 r r hrn hrn]
      by_cases hri : r = i
      · rw [if_pos ⟨hri, hri⟩]
      · rw [if_neg (fun h => hri h.1), if_neg (fun h => hri h.1)]
        exact h2 r (by omega) hrn
    · intro r j hr hrj hj
      show L1.getD (j * n + r) 0 = (A.getD (j * n + r) 0 -
        ∑ k ∈ range r, L1.getD (j * n + k) 0 * U1.getD (k * n + r) 0) / U1.getD (r * n + r) 0
      have hsum : ∑ k ∈ range r, L1.getD (j * n + k) 0 * U1.getD (k * n + r) 0 =
          ∑ k ∈ range r, L.getD (j * n + k) 0 * U1.getD (k * n + r) 0 := by
        apply sum_congr rfl
        intro k hk
        rw [mem_range] at hk
        rw [hL2 j k hj (by omega), if_neg (by omega), if_neg (by omega)]
      rw [hsum, hL2 j r hj (by omega)]
      by_cases hri : r = i
      · subst hri
        rw [if_neg (by omega), if_pos ⟨rfl, hrj⟩]
      · rw [if_neg (fun h => hri h.1), if_neg (fun h => hri h.1)]
        have hsum2 : ∑ k ∈ range r, L.getD (j * n + k) 0 * U1.getD (k * n + r) 0 =
            ∑ k ∈ range r, L.getD (j * n + k) 0 * U.getD (k * n + r) 0 := by
          apply sum_congr rfl
          intro k hk
          rw [mem_range] at hk
          rw [hU2 k r (by omega) (by omega), if_neg (by omega)]
        rw [hsum2, hU2 r r (by omega) (by omega), if_neg (fun h => hri h.1)]
        exact h3 r j (by omega) hrj hj
    · intro r j hr hj hor
      show U1.getD (r * n + j) 0 = 0
      rw [hU2 r j hr hj, if_neg (by omega)]
      exact h4 r j hr hj (by omega)
    · intro r j hr hj hor
      show L1.getD (r * n + j) 0 = 0
      rw [hL2 r j hr hj, if_neg (by omega), if_neg (by omega)]
      exact h5 r j hr hj (by omega)

theorem sum_range_trunc (m n : Nat) (f : Nat → ℚ) (hmn : m ≤ n)
    (h0 : ∀ k, m ≤ k → k < n → f k = 0) : ∑ k ∈ range n, f k = ∑ k ∈ range m, f k := by
  induction n, hmn using Nat.le_induction with
  | base => rfl
  | succ n hn ih =>
    rw [sum_range_succ, h0 n hn (Nat.lt_succ_self n), add_zero]
    exact ih (fun k hk hkn => h0 k hk (Nat.lt_succ_of_lt hkn))

/-- With nonzero pivots the factors multiply back to `A`. -/
theorem lu_factor_mul (n : Nat) (A : List ℚ)
    (hp : ∀ i, i < n → (lu_factor n A).2.getD (i * n + i) 0 ≠ 0) (r j : Nat) (hr : r < n)
    (hj : j < n) :
    ∑ k ∈ range n, (lu_factor n A).1.getD (r * n + k) 0 * (lu_factor n A).2.getD (k * n + j) 0 =
      A.getD (r * n + j) 0 := by
  obtain ⟨-, -, h1, h2, h3, h4, h5⟩ := lu_factor_inv n A
  generalize lu_factor n A = LU at hp h1 h2 h3 h4 h5 ⊢
  by_cases hrj : r ≤ j
  · rw [sum_range_trunc (r + 1) n _ (by omega)
      (fun k hk hkn => by rw [h5 r k hr hkn (Or.inr (by omega)), zero_mul]),
      sum_range_succ, h2 r hr hr, one_mul, h1 r j hr hrj hj]
    ring
  · rw [sum_range_trunc (j + 1) n _ (by omega)
      (fun k hk hkn => by rw [h4 k j hkn hj (Or.inr (by omega)), mul_zero]),
      sum_range_succ, h3 j r hj (by omega) hr, div_mul_cancel₀ _ (hp j hj)]
    ring

/-- Forward substitution: every entry of the result obeys the recurrence of
`L · y = b`. -/
theorem lu_forward_inv (n : Nat) (L b : List ℚ) (i : Nat) (hi : i < n) :
    (lu_forward n L b).getD i 0 =
      (b.getD i 0 - ∑ j ∈ range i, L.getD (i * n + j) 0 * (lu_forward n L b).getD j 0) /
        L.getD (i * n + i) 0 := by
  have key := forLoop_inv
    (fun i0 (sol : List ℚ) => sol.length = n ∧ ∀ i, i < i0 →
      sol.getD i 0 = (b.getD i 0 - ∑ j ∈ range i, L.getD (i * n + j) 0 * sol.getD j 0) /
        L.getD (i * n + i) 0)
    0 n (Nat.zero_le _)
    (fun i sol => sol.set i
      (forLoop 0 i (fun j val => val - L.getD (i * n + j) 0 * sol.getD j 0) (b.getD i 0) /
        L.getD (i * n + i) 0))
    (List.replicate n 0)
    ⟨by simp, fun i hi => by omega⟩
    (by
      intro i0 sol _ hi0 ⟨hlen, hsol⟩
      beta_reduce
      refine ⟨by simpa using hlen, fun i hi => ?_⟩
      rw [forLoop_sub]
      have hsum : ∀ i, i ≤ i0 → ∑ j ∈ range i, L.getD (i * n + j) 0 *
          (sol.set i0 ((b.getD i0 0 - ∑ j ∈ range i0, L.getD (i0 * n + j) 0 * sol.getD j 0) /
            L.getD (i0 * n + i0) 0)).getD j 0 =
          ∑ j ∈ range i, L.getD (i * n + j) 0 * sol.getD j 0 := by
        intro i hi
        apply sum_congr rfl
        intro j hj
        rw [mem_range] at hj
        rw [getD_set, if_neg (by omega)]
      rw [hsum i (by omega)]
      by_cases h : i0 = i
      · subst h
        rw [getD_set, if_pos ⟨rfl, by omega⟩]
      · rw [getD_set, if_neg (fun hh => h hh.1)]
        exact hsol i (by omega))
  exact key.2 i hi

/-- Back-substitution: every entry of the result obeys the recurrence of
`U · x = y`. -/
theorem back_steps_inv (n : Nat) (U y : List ℚ) :
    ∀ (m : Nat) (sol : List ℚ), m ≤ n → sol.length = n →
      (∀ i, m ≤ i → i < n → sol.getD i 0 =
        (y.getD i 0 - ∑ j ∈ Ico (i + 1) n, U.getD (i * n + j) 0 * sol.getD j 0) /
          U.getD (i * n + i) 0) →
      (∀ i, i < m → sol.getD i 0 = y.getD i 0) →
      ∀ i, i < n → (back_steps n U m sol).getD i 0 =
        (y.getD i 0 - ∑ j ∈ Ico (i + 1) n, U.getD (i * n + j) 0 *
          (back_steps n U m sol).getD j 0) / U.getD (i * n + i) 0 := by
  intro m
  induction m with
  | zero =>
    intro sol _ _ h1 _ i hi
    exact h1 i (Nat.zero_le _) hi
  | succ m ih =>
    intro sol hm hlen h1 h2 i hi
    rw [back_steps]
    have hsum : ∀ i, m ≤ i → ∑ j ∈ Ico (i + 1) n, U.getD (i * n + j) 0 *
        (back_body n U m sol).getD j 0 =
        ∑ j ∈ Ico (i + 1) n, U.getD (i * n + j) 0 * sol.getD j 0 := by
      intro i hi
      apply sum_congr rfl
      intro j hj
      rw [mem_Ico] at hj
      rw [back_body, getD_set, if_neg (by omega)]
    apply ih (back_body n U m sol) (by omega) (by rw [back_body_length]; exact hlen)
    · intro i hmi hi
      rw [hsum i hmi]
      by_cases h : m = i
      · subst h
        rw [back_body, getD_set, if_pos ⟨rfl, by omega⟩, h2 m (Nat.lt_succ_self m)]
      · rw [back_body, getD_set, if_neg (fun hh => h hh.1)]
        exact h1 i (by omega) hi
    · intro i hi
      rw [back_body, getD_set, if_neg (by omega)]
      exact h2 i (by omega)
    · exact hi

/-- With nonzero pivots, the vector left by the three loops of
`lu_decomposition` solves `A · x = b`. -/
theorem lu_solution (n : Nat) (A b : List ℚ)
    (hp : ∀ i, i < n → (lu_factor n A).2.getD (i * n + i) 0 ≠ 0) (i : Nat) (hi : i < n) :
    ∑ j ∈ range n, A.getD (i * n + j) 0 *
      (back_steps n (lu_factor n A).2 n (lu_forward n (lu_factor n A).1 b)).getD j 0 =
        b.getD i 0 := by
  have hmul := lu_factor_mul n A hp
  obtain ⟨-, -, -, h2, -, h4, h5⟩ := lu_factor_inv n A
  have hfw := lu_forward_inv n (lu_factor n A).1 b
  have hbk := back_steps_inv n (lu_factor n A).2 (lu_forward n (lu_factor n A).1 b) n
    (lu_forward n (lu_factor n A).1 b) (le_refl _) (lu_forward_length _ _ _)
    (fun i h1 h2 => by omega) (fun _ _ => rfl)
  generalize lu_forward n (lu_factor n A).1 b = y at hfw hbk ⊢
  generalize back_steps n (lu_factor n A).2 n y = x at hbk ⊢
  generalize lu_factor n A = LU at hp hmul h2 h4 h5 hfw hbk ⊢
  have hU : ∀ k, k < n → ∑ j ∈ range n, LU.2.getD (k * n + j) 0 * x.getD j 0 = y.getD k 0 := by
    intro k hk
    rw [range_eq_Ico, ← sum_Ico_consecutive _ (Nat.zero_le (k + 1)) (by omega : k + 1 ≤ n),
      ← range_eq_Ico, sum_range_succ]
    have hz : ∑ j ∈ range k, LU.2.getD (k * n + j) 0 * x.getD j 0 = 0 := by
      apply sum_eq_zero
      intro j hj
      rw [mem_range] at hj
      rw [h4 k j hk (by omega) (Or.inr hj), zero_mul]
    have hx := hbk k hk
    rw [eq_div_iff (hp k hk)] at hx
    rw [hz, zero_add, mul_comm, hx]
    ring
  have hL : ∑ k ∈ range n, LU.1.getD (i * n + k) 0 * y.getD k 0 = b.getD i 0 := by
    rw [sum_range_trunc (i + 1) n _ (by omega)
      (fun k hk hkn => by rw [h5 i k hi hkn (Or.inr (by omega)), zero_mul]),
      sum_range_succ, h2 i hi hi, one_mul]
    have hy := hfw i hi
    rw [h2 i hi hi, div_one] at hy
    rw [hy]
    ring
  calc ∑ j ∈ range n, A.getD (i * n + j) 0 * x.getD j 0
      = ∑ j ∈ range n, (∑ k ∈ range n, LU.1.getD (i * n + k) 0 * LU.2.getD (k * n + j) 0) *
          x.getD j 0 := by
        apply sum_congr rfl
        intro j hj
        rw [mem_range] at hj
        rw [hmul i j hi hj]
    _ = ∑ k ∈ range n, LU.1.getD (i * n + k) 0 *
          ∑ j ∈ range n, LU.2.getD (k * n + j) 0 * x.getD j 0 := by
        simp only [sum_mul, mul_sum]
        rw [sum_comm]
        apply sum_congr rfl
        intro k _
        apply sum_congr rfl
        intro j _
        ring
    _ = ∑ k ∈ range n, LU.1.getD (i * n + k) 0 * y.getD k 0 := by
        apply sum_congr rfl
        intro k hk
        rw [mem_range] at hk
        rw [hU k hk]
    _ = b.getD i 0 := hL

/-! ## The claims -/

/-- C6: `lhs` computes `A = J · diag(W) · Jᵀ`: the result has length `M * M` and
its entry `i * M + j` is the sum over the columns `c < 3N` of
`jcb[i * 3N + c] * jcb[j * 3N + c] * inv_masses[c]`. -/
theorem lhs_eq_J_W_Jt (c : compeller2D) (jcb inv_masses : List ℚ) :
    (lhs c jcb inv_masses).length = c.m_constrains.length * c.m_constrains.length ∧
    ∀ i j, i < c.m_constrains.length → j < c.m_constrains.length →
      (lhs c jcb inv_masses).getD (i * c.m_constrains.length + j) 0 =
        ∑ k ∈ range (3 * c.m_entities.length),
          jcb.getD (i * (3 * c.m_entities.length) + k) 0 *
            jcb.getD (j * (3 * c.m_entities.length) + k) 0 * inv_masses.getD k 0 :=
  lhs_inv c jcb inv_masses

theorem lhs_eq_J_W_Jt_witness :
    (lhs twin_constraints [1, 2, 3, 4, 5, 6] [2, 2, 2]).getD
        (0 * twin_constraints.m_constrains.length + 1) 0 =
      ∑ k ∈ range (3 * twin_constraints.m_entities.length),
        [1, 2, 3, 4, 5, (6 : ℚ)].getD (0 * (3 * twin_constraints.m_entities.length) + k) 0 *
          [1, 2, 3, 4, 5, (6 : ℚ)].getD (1 * (3 * twin_constraints.m_entities.length) + k) 0 *
          [2, 2, (2 : ℚ)].getD k 0 :=
  (lhs_eq_J_W_Jt twin_constraints [1, 2, 3, 4, 5, 6] [2, 2, 2]).2 0 1 (by decide) (by decide)

/-- C10: the matrix returned by `lhs` is symmetric: `A[i * M + j] = A[j * M + i]`
for all `i, j < M`. -/
theorem lhs_symmetric (c : compeller2D) (jcb inv_masses : List ℚ) (i j : Nat)
    (hi : i < c.m_constrains.length) (hj : j < c.m_constrains.length) :
    (lhs c jcb inv_masses).getD (i * c.m_constrains.length + j) 0 =
      (lhs c jcb inv_masses).getD (j * c.m_constrains.length + i) 0 := by
  rw [(lhs_inv c jcb inv_masses).2 i j hi hj, (lhs_inv c jcb inv_masses).2 j i hj hi]
  apply sum_congr rfl
  intro k _
  ring

theorem lhs_symmetric_witness :
    (lhs twin_constraints [1, 2, 3, 4, 5, 6] [2, 2, 2]).getD
        (0 * twin_constraints.m_constrains.length + 1) 0 =
      (lhs twin_constraints [1, 2, 3, 4, 5, 6] [2, 2, 2]).getD
        (1 * twin_constraints.m_constrains.length + 0) 0 :=
  lhs_symmetric twin_constraints [1, 2, 3, 4, 5, 6] [2, 2, 2] 0 1 (by decide) (by decide)

/-- C7: `rhs` computes the specified right-hand side: the result has length `M`
and `b[i]` is minus the sum over the bodies `k < N` and `d < 3` of
`(djcb[i*3N+3k+d] * stchanges[6k+d] + jcb[i*3N+3k+d] * stchanges[6k+3+d]) *
inv_masses[3k+d]`, minus `stiffness * value_i`, minus `dampening * derivative_i`. -/
theorem rhs_eq (c : compeller2D) (jcb djcb stchanges inv_masses : List ℚ) :
    (rhs c jcb djcb stchanges inv_masses).length = c.m_constrains.length ∧
    ∀ i, i < c.m_constrains.length →
      (rhs c jcb djcb stchanges inv_masses).getD i 0 =
        -(∑ k ∈ range c.m_entities.length, ∑ d ∈ range 3,
            (djcb.getD (i * (3 * c.m_entities.length) + 3 * k + d) 0 *
                stchanges.getD (6 * k + d) 0 +
              jcb.getD (i * (3 * c.m_entities.length) + 3 * k + d) 0 *
                stchanges.getD (6 * k + 3 + d) 0) *
            inv_masses.getD (3 * k + d) 0) -
          c.m_stiffness * (c.m_constrains.getD i default).value -
          c.m_dampening * (c.m_constrains.getD i default).derivative := by
  refine ⟨(rhs_inv c jcb djcb stchanges inv_masses).1, fun i hi => ?_⟩
  rw [(rhs_inv c jcb djcb stchanges inv_masses).2 i hi, rhs_entry]
  have hsum : ∑ j ∈ range c.m_entities.length, ∑ k ∈ range POS_PER_ENTITY,
      rhs_term (POS_PER_ENTITY * c.m_entities.length) jcb djcb stchanges inv_masses i j k =
      ∑ k ∈ range c.m_entities.length, ∑ d ∈ range 3,
        (djcb.getD (i * (3 * c.m_entities.length) + 3 * k + d) 0 *
            stchanges.getD (6 * k + d) 0 +
          jcb.getD (i * (3 * c.m_entities.length) + 3 * k + d) 0 *
            stchanges.getD (6 * k + 3 + d) 0) *
        inv_masses.getD (3 * k + d) 0 := by
    apply sum_congr rfl
    intro k _
    apply sum_congr rfl
    intro d _
    have e1 : i * (3 * c.m_entities.length) + (k * 3 + d) =
        i * (3 * c.m_entities.length) + 3 * k + d := by omega
    have e2 : k * 6 + d = 6 * k + d := by omega
    have e3 : k * 6 + d + 3 = 6 * k + 3 + d := by omega
    have e4 : k * 3 + d = 3 * k + d := by omega
    have e5 : i * (3 * c.m_entities.length) + (3 * k + d) =
        i * (3 * c.m_entities.length) + 3 * k + d := by omega
    have e6 : 6 * k + d + 3 = 6 * k + 3 + d := by omega
    simp only [rhs_term, POS_PER_ENTITY, VAR_PER_ENTITY, e1, e2, e3, e4, e5, e6]
  rw [hsum]
  ring

theorem rhs_eq_witness :
    (rhs one_constraint [1, 0, 0] [0, 0, 0] [1, 2, 3, 4, 5, 6] [2, 2, 2]).getD 0 0 =
        -(∑ k ∈ range one_constraint.m_entities.length, ∑ d ∈ range 3,
            ([0, 0, (0 : ℚ)].getD (0 * (3 * one_constraint.m_entities.length) + 3 * k + d) 0 *
                [1, 2, 3, 4, 5, (6 : ℚ)].getD (6 * k + d) 0 +
              [1, 0, (0 : ℚ)].getD (0 * (3 * one_constraint.m_entities.length) + 3 * k + d) 0 *
                [1, 2, 3, 4, 5, (6 : ℚ)].getD (6 * k + 3 + d) 0) *
            [2, 2, (2 : ℚ)].getD (3 * k + d) 0) -
          one_constraint.m_stiffness * (one_constraint.m_constrains.getD 0 default).value -
          one_constraint.m_dampening * (one_constraint.m_constrains.getD 0 default).derivative :=
  (rhs_eq one_constraint [1, 0, 0] [0, 0, 0] [1, 2, 3, 4, 5, 6] [2, 2, 2]).2 0 (by decide)

/-- C5: layout of `constrain_matrix` (which `jacobian` calls with the gradient and
`jacobian_derivative` with its derivative): when every body a constraint
references has an index below `N`, the result has length `M * 3N` and its entry
`i * 3N + 3k + d` is component `d` of the gradient of constraint `i` at body `k`
when constraint `i` references body `k`, and `0` otherwise. -/
theorem constrain_matrix_layout (c : compeller2D)
    (grad : constrain_interface → Nat → Nat → ℚ)
    (hidx : ∀ i, i < c.m_constrains.length →
      ∀ e ∈ (c.m_constrains.getD i default).entities, e < c.m_entities.length) :
    (constrain_matrix c grad).length = c.m_constrains.length * (3 * c.m_entities.length) ∧
    ∀ i k d, i < c.m_constrains.length → k < c.m_entities.length → d < 3 →
      (constrain_matrix c grad).getD (i * (3 * c.m_entities.length) + 3 * k + d) 0 =
        if k ∈ (c.m_constrains.getD i default).entities then
          grad (c.m_constrains.getD i default) k d
        else 0 := by
  refine ⟨(constrain_matrix_inv c grad hidx).1, fun i k d hi hk hd => ?_⟩
  have e1 : i * (3 * c.m_entities.length) + 3 * k + d =
      i * (3 * c.m_entities.length) + (k * 3 + d) := by omega
  rw [e1, (constrain_matrix_inv c grad hidx).2 i k d hi hk hd, cm_entry]

theorem constrain_matrix_layout_witness :
    (jacobian two_rows).getD (1 * (3 * two_rows.m_entities.length) + 3 * 0 + 2) 0 =
      if 0 ∈ (two_rows.m_constrains.getD 1 default).entities then
        (two_rows.m_constrains.getD 1 default).constrain_grad 0 2
      else 0 :=
  (constrain_matrix_layout two_rows constrain_interface.constrain_grad (by
    intro i hi e he
    have hi2 : i < 2 := hi
    interval_cases i <;> simp [two_rows] at he ⊢ <;> omega)).2 1 0 2
    (by decide) (by decide) (by decide)

/-- C4: LU round trip.  For a system of `M < 2^64` constraints, more fuel than
constraints, and a matrix `A` whose pivots `U[i][i]` are all nonzero,
`lu_decomposition` returns a vector `sol` of length `M` with `A · sol = b`: for
every row `i`, the sum over `j` of `A[i * M + j] * sol[j]` is `b[i]`. -/
theorem lu_decomposition_round_trip (fuel : Nat) (c : compeller2D) (A b : List ℚ)
    (hsize : c.m_constrains.length < SIZE_T) (hfuel : c.m_constrains.length < fuel)
    (hp : ∀ i, i < c.m_constrains.length →
      (lu_factor c.m_constrains.length A).2.getD (i * c.m_constrains.length + i) 0 ≠ 0) :
    ∃ sol, lu_decomposition fuel c A b = some sol ∧ sol.length = c.m_constrains.length ∧
      ∀ i, i < c.m_constrains.length →
        ∑ j ∈ range c.m_constrains.length,
          A.getD (i * c.m_constrains.length + j) 0 * sol.getD j 0 = b.getD i 0 := by
  refine ⟨_, lu_decomposition_total fuel c A b hsize hfuel, ?_, ?_⟩
  · rw [back_steps_length, lu_forward_length]
  · intro i hi
    exact lu_solution c.m_constrains.length A b hp i hi

theorem lu_decomposition_round_trip_witness :
    ∃ sol, lu_decomposition 3 twin_constraints [4, 3, 6, 3] [10, 12] = some sol ∧
      sol.length = twin_constraints.m_constrains.length ∧
      ∀ i, i < twin_constraints.m_constrains.length →
        ∑ j ∈ range twin_constraints.m_constrains.length,
          [4, 3, 6, (3 : ℚ)].getD (i * twin_constraints.m_constrains.length + j) 0 *
            sol.getD j 0 = [10, (12 : ℚ)].getD i 0 :=
  lu_decomposition_round_trip 3 twin_constraints [4, 3, 6, 3] [10, 12] (by decide) (by decide)
    (by
      intro i hi
      have hi2 : i < 2 := hi
      interval_cases i <;> norm_num [twin_constraints, lu_factor, forLoop, iterate])

theorem load_no_rows (c : compeller2D) (hrows : c.m_constrains.length = 0)
    (jcb lambda stchanges : List ℚ) :
    load_constrain_accels c jcb lambda stchanges = stchanges := by
  unfold load_constrain_accels
  rw [hrows]
  apply forLoop_inv (fun _ s => s = stchanges) 0 c.m_entities.length (Nat.zero_le _)
  · rfl
  · intro i s _ _ hs
    subst hs
    by_cases hd : (c.m_entities.getD i ⟨false⟩).dynamic = true
    · rw [if_pos hd]
      simp [forLoop, iterate]
    · rw [if_neg hd]

/-- C9: frame of the solver on `stchanges`.  The call ends (for `M < 2^64` and
more fuel than constraints), keeps the length of `stchanges`, changes a cell only
if it is one of `6k + 3`, `6k + 4`, `6k + 5` for a dynamic body `k < N`, and so
leaves every velocity cell `6k + d` and every acceleration cell `6k + 3 + d` of a
body that is not dynamic as it was. -/
theorem solve_frame (fuel : Nat) (c : compeller2D) (stchanges inv_masses : List ℚ)
    (hsize : c.m_constrains.length < SIZE_T) (hfuel : c.m_constrains.length < fuel) :
    ∃ st, solve_and_load_constrains fuel c stchanges inv_masses = some st ∧
      st.length = stchanges.length ∧
      (∀ p, st.getD p 0 ≠ stchanges.getD p 0 →
        ∃ k d, k < c.m_entities.length ∧ d < 3 ∧
          (c.m_entities.getD k ⟨false⟩).dynamic = true ∧ p = 6 * k + 3 + d) ∧
      (∀ k d, d < 3 → st.getD (6 * k + d) 0 = stchanges.getD (6 * k + d) 0) ∧
      (∀ k d, d < 3 → (c.m_entities.getD k ⟨false⟩).dynamic = false →
        st.getD (6 * k + 3 + d) 0 = stchanges.getD (6 * k + 3 + d) 0) := by
  unfold solve_and_load_constrains
  simp only [lu_decomposition_total fuel c _ _ hsize hfuel, Option.map_some']
  refine ⟨_, rfl, ?_⟩
  generalize back_steps c.m_constrains.length _ c.m_constrains.length _ = lambda
  obtain ⟨hlen, hget⟩ := load_constrain_accels_getD c (jacobian c) lambda stchanges
  refine ⟨hlen, ?_, ?_, ?_⟩
  · intro p hp
    rw [hget p] at hp
    by_cases hc : p / 6 < c.m_entities.length ∧ 3 ≤ p % 6 ∧
        (c.m_entities.getD (p / 6) ⟨false⟩).dynamic = true ∧ p < stchanges.length
    · exact ⟨p / 6, p % 6 - 3, hc.1, by omega, hc.2.2.1, by omega⟩
    · rw [if_neg hc] at hp
      exact absurd rfl hp
  · intro k d hd
    rw [hget (6 * k + d), if_neg (by omega)]
  · intro k d hd hdyn
    have e : (6 * k + 3 + d) / 6 = k := by omega
    rw [hget (6 * k + 3 + d), if_neg]
    rw [e, hdyn]
    simp

theorem solve_frame_witness :
    ∃ st, solve_and_load_constrains 2 one_constraint [1, 2, 3, 4, 5, 6] [2, 2, 2] = some st ∧
      st.length = [1, 2, 3, 4, 5, (6 : ℚ)].length ∧
      (∀ p, st.getD p 0 ≠ [1, 2, 3, 4, 5, (6 : ℚ)].getD p 0 →
        ∃ k d, k < one_constraint.m_entities.length ∧ d < 3 ∧
          (one_constraint.m_entities.getD k ⟨false⟩).dynamic = true ∧ p = 6 * k + 3 + d) ∧
      (∀ k d, d < 3 → st.getD (6 * k + d) 0 = [1, 2, 3, 4, 5, (6 : ℚ)].getD (6 * k + d) 0) ∧
      (∀ k d, d < 3 → (one_constraint.m_entities.getD k ⟨false⟩).dynamic = false →
        st.getD (6 * k + 3 + d) 0 = [1, 2, 3, 4, 5, (6 : ℚ)].getD (6 * k + 3 + d) 0) :=
  solve_frame 2 one_constraint [1, 2, 3, 4, 5, 6] [2, 2, 2] (by decide) (by decide)

/-- C1 (the code differs): for one dynamic body of inverse mass `2` at rest under
one constraint with gradient `(1, 0, 0)`, `C = 1`, `dC/dt = 0`, stiffness `5` and
dampening `2`, the only pivot is `2`, the solver leaves the acceleration
`(-5/2, 0, 0)`, and the Baumgarte sum of the claim is `5/2`, not `0`. -/
theorem baumgarte_residual_nonzero :
    (lu_factor 1 (lhs one_constraint (jacobian one_constraint) [2, 2, 2])).2.getD 0 0 = 2 ∧
    solve_and_load_constrains 2 one_constraint [0, 0, 0, 0, 0, 0] [2, 2, 2] =
      some [0, 0, 0, -5 / 2, 0, 0] ∧
    baumgarte_residual one_constraint [0, 0, 0, 0, 0, 0] [0, 0, 0, -5 / 2, 0, 0] 0 = 5 / 2 := by
  refine ⟨?_, ?_, ?_⟩
  · norm_num [lu_factor, lhs, jacobian, constrain_matrix, one_constraint, grad_x, forLoop,
      iterate]
  · norm_num [solve_and_load_constrains, lu_decomposition, lu_backward, lu_forward, lu_factor,
      rhs, lhs, jacobian, jacobian_derivative, constrain_matrix, load_constrain_accels,
      one_constraint, grad_x, grad_zero, forLoop, iterate]
  · norm_num [baumgarte_residual, jacobian, jacobian_derivative, constrain_matrix,
      one_constraint, grad_x, grad_zero, forLoop, iterate, sum_range_succ]

/-- C2 (the code differs): for one dynamic body under two constraints with
gradients `(1, 2, 3)` and `(4, 5, 6)`, the Jacobian is `[1, 2, 3, 4, 5, 6]`
(row-major, two rows of three), and with `lambda = [1, 1]` and a zero `stchanges`
the code leaves the acceleration `(3, 7, 11)`: it reads `jcb[(3k+d) * M + i]`.
The claimed `J[0][0] * lambda[0] + J[1][0] * lambda[1]` for the first
coordinate is `5`. -/
theorem load_constrain_accels_transposed :
    jacobian two_rows = [1, 2, 3, 4, 5, 6] ∧
    load_constrain_accels two_rows (jacobian two_rows) [1, 1] [0, 0, 0, 0, 0, 0] =
      [0, 0, 0, 3, 7, 11] ∧
    [0, 0, 0, 0, 0, (0 : ℚ)].getD (6 * 0 + 3 + 0) 0 +
      ∑ i ∈ range two_rows.m_constrains.length,
        (jacobian two_rows).getD (i * (3 * two_rows.m_entities.length) + (3 * 0 + 0)) 0 *
          [1, (1 : ℚ)].getD i 0 = 5 := by
  have hj : jacobian two_rows = [1, 2, 3, 4, 5, 6] := by
    norm_num [jacobian, constrain_matrix, two_rows, forLoop, iterate]
    rfl
  refine ⟨hj, ?_, ?_⟩
  · rw [hj]
    norm_num [load_constrain_accels, two_rows, forLoop, iterate]
  · rw [hj]
    norm_num [two_rows, sum_range_succ]

/-- C3, as the code has it: `lu_decomposition` has no pivot test and no failure
result.  For `M < 2^64` constraints and more fuel than constraints it returns a
vector of length `M` for every `A` and `b`, zero pivots included, and
`solve_and_load_constrains` returns `stchanges` with the terms of that vector
loaded by `load_constrain_accels`. -/
theorem solve_reports_no_failure (fuel : Nat) (c : compeller2D) (stchanges inv_masses : List ℚ)
    (hsize : c.m_constrains.length < SIZE_T) (hfuel : c.m_constrains.length < fuel) :
    (∀ A b, ∃ sol, lu_decomposition fuel c A b = some sol ∧
      sol.length = c.m_constrains.length) ∧
    ∃ lambda,
      lu_decomposition fuel c (lhs c (jacobian c) inv_masses)
        (rhs c (jacobian c) (jacobian_derivative c) stchanges inv_masses) = some lambda ∧
      solve_and_load_constrains fuel c stchanges inv_masses =
        some (load_constrain_accels c (jacobian c) lambda stchanges) := by
  constructor
  · intro A b
    refine ⟨_, lu_decomposition_total fuel c A b hsize hfuel, ?_⟩
    rw [back_steps_length, lu_forward_length]
  · refine ⟨_, lu_decomposition_total fuel c _ _ hsize hfuel, ?_⟩
    unfold solve_and_load_constrains
    simp only [lu_decomposition_total fuel c _ _ hsize hfuel, Option.map_some']

theorem solve_reports_no_failure_witness :
    (∀ A b, ∃ sol, lu_decomposition 3 twin_constraints A b = some sol ∧
      sol.length = twin_constraints.m_constrains.length) ∧
    ∃ lambda,
      lu_decomposition 3 twin_constraints
        (lhs twin_constraints (jacobian twin_constraints) [1, 1, 1])
        (rhs twin_constraints (jacobian twin_constraints)
          (jacobian_derivative twin_constraints) [0, 0, 0, 0, 0, 0] [1, 1, 1]) = some lambda ∧
      solve_and_load_constrains 3 twin_constraints [0, 0, 0, 0, 0, 0] [1, 1, 1] =
        some (load_constrain_accels twin_constraints (jacobian twin_constraints) lambda
          [0, 0, 0, 0, 0, 0]) :=
  solve_reports_no_failure 3 twin_constraints [0, 0, 0, 0, 0, 0] [1, 1, 1] (by decide)
    (by decide)

/-- C3 fails as stated: for one dynamic body at rest under two identical
constraints the second pivot `U[1][1]` is zero, yet the solver returns normally
and `stchanges` has changed (in exact arithmetic, with `0 / 0` read as `0`, to the
acceleration `(-5, 0, 0)`). -/
theorem singular_system_not_reported :
    (lu_factor 2 (lhs twin_constraints (jacobian twin_constraints) [1, 1, 1])).2.getD
      (1 * 2 + 1) 0 = 0 ∧
    solve_and_load_constrains 3 twin_constraints [0, 0, 0, 0, 0, 0] [1, 1, 1] =
      some [0, 0, 0, -5, 0, 0] ∧
    [0, 0, 0, -5, 0, (0 : ℚ)] ≠ [0, 0, 0, 0, 0, 0] := by
  have hj : jacobian twin_constraints = [1, 0, 0, 1, 0, 0] := by
    norm_num [jacobian, constrain_matrix, twin_constraints, grad_x, forLoop, iterate]
    rfl
  have hdj : jacobian_derivative twin_constraints = [0, 0, 0, 0, 0, 0] := by
    norm_num [jacobian_derivative, constrain_matrix, twin_constraints, grad_zero, forLoop,
      iterate]
    rfl
  have hA : lhs twin_constraints [1, 0, 0, 1, 0, 0] [1, 1, 1] = [1, 1, 1, 1] := by
    norm_num [lhs, twin_constraints, forLoop, iterate]
    rfl
  have hb : rhs twin_constraints [1, 0, 0, 1, 0, 0] [0, 0, 0, 0, 0, 0] [0, 0, 0, 0, 0, 0]
      [1, 1, 1] = [-5, -5] := by
    norm_num [rhs, twin_constraints, forLoop, iterate]
    rfl
  refine ⟨?_, ?_, by decide⟩
  · rw [hj, hA]
    norm_num [lu_factor, forLoop, iterate]
  · unfold solve_and_load_constrains
    simp only [hj, hdj, hA, hb]
    norm_num [lu_decomposition, lu_backward, lu_forward, lu_factor, load_constrain_accels,
      twin_constraints, forLoop, iterate]

/-- C16: the Doolittle factorisation built by the first loop of
`lu_decomposition`.  When every pivot `U[i][i]` is nonzero, `L` has a unit
diagonal and is zero above it, `U` is zero below its diagonal, and
`L · U = A`: the sum over `k` of `L[i][k] * U[k][j]` is `A[i][j]`. -/
theorem lu_factor_doolittle (n : Nat) (A : List ℚ)
    (hp : ∀ i, i < n → (lu_factor n A).2.getD (i * n + i) 0 ≠ 0) :
    (∀ i, i < n → (lu_factor n A).1.getD (i * n + i) 0 = 1) ∧
    (∀ i j, i < n → j < n → i < j → (lu_factor n A).1.getD (i * n + j) 0 = 0) ∧
    (∀ i j, i < n → j < n → j < i → (lu_factor n A).2.getD (i * n + j) 0 = 0) ∧
    (∀ i j, i < n → j < n →
      ∑ k ∈ range n, (lu_factor n A).1.getD (i * n + k) 0 * (lu_factor n A).2.getD (k * n + j) 0 =
        A.getD (i * n + j) 0) := by
  obtain ⟨-, -, -, h2, -, h4, h5⟩ := lu_factor_inv n A
  exact ⟨fun i hi => h2 i hi hi, fun i j hi hj hij => h5 i j hi hj (Or.inr hij),
    fun i j hi hj hij => h4 i j hi hj (Or.inr hij), fun i j hi hj => lu_factor_mul n A hp i j hi hj⟩

theorem lu_factor_doolittle_witness :
    (∀ i, i < 2 → (lu_factor 2 [4, 3, 6, 3]).1.getD (i * 2 + i) 0 = 1) ∧
    (∀ i j, i < 2 → j < 2 → i < j → (lu_factor 2 [4, 3, 6, 3]).1.getD (i * 2 + j) 0 = 0) ∧
    (∀ i j, i < 2 → j < 2 → j < i → (lu_factor 2 [4, 3, 6, 3]).2.getD (i * 2 + j) 0 = 0) ∧
    (∀ i j, i < 2 → j < 2 →
      ∑ k ∈ range 2, (lu_factor 2 [4, 3, 6, 3]).1.getD (i * 2 + k) 0 *
        (lu_factor 2 [4, 3, 6, 3]).2.getD (k * 2 + j) 0 = [4, 3, 6, (3 : ℚ)].getD (i * 2 + j) 0) :=
  lu_factor_doolittle 2 [4, 3, 6, 3] (by
    intro i hi
    interval_cases i <;> norm_num [lu_factor, forLoop, iterate])

/-- A row of the Jacobian whose bodies all have zero inverse masses contributes
nothing to the products that make up `lhs`. -/
theorem static_row_term (c : compeller2D) (inv_masses : List ℚ) (i : Nat)
    (hi : i < c.m_constrains.length)
    (hidx : ∀ r, r < c.m_constrains.length →
      ∀ e ∈ (c.m_constrains.getD r default).entities, e < c.m_entities.length)
    (hstatic : ∀ k ∈ (c.m_constrains.getD i default).entities, ∀ d, d < 3 →
      inv_masses.getD (3 * k + d) 0 = 0)
    (k : Nat) (hk : k < 3 * c.m_entities.length) :
    (jacobian c).getD (i * (3 * c.m_entities.length) + k) 0 * inv_masses.getD k 0 = 0 := by
  have hkd : k = k / 3 * 3 + k % 3 := by omega
  have hget := (constrain_matrix_inv c constrain_interface.constrain_grad hidx).2 i (k / 3)
    (k % 3) hi (by omega) (by omega)
  rw [← hkd] at hget
  rw [show jacobian c = constrain_matrix c constrain_interface.constrain_grad from rfl, hget,
    cm_entry]
  by_cases hmem : k / 3 ∈ (c.m_constrains.getD i default).entities
  · have := hstatic (k / 3) hmem (k % 3) (by omega)
    rw [show 3 * (k / 3) + k % 3 = k by omega] at this
    rw [this, mul_zero]
  · rw [if_neg hmem, zero_mul]

/-- A row of `A` that is zero makes the row of `L` left of the diagonal zero and
the pivot of that row zero. -/
theorem lu_factor_zero_row (n : Nat) (A : List ℚ) (i : Nat) (hi : i < n)
    (hrow : ∀ j, j < n → A.getD (i * n + j) 0 = 0) :
    (lu_factor n A).2.getD (i * n + i) 0 = 0 := by
  obtain ⟨-, -, h1, -, h3, -, -⟩ := lu_factor_inv n A
  generalize lu_factor n A = LU at h1 h3 ⊢
  have hL : ∀ r, r < i → LU.1.getD (i * n + r) 0 = 0 := by
    intro r
    induction r using Nat.strong_induction_on with
    | _ r ih =>
      intro hr
      rw [h3 r i (by omega) hr hi, hrow r (by omega)]
      have hz : ∑ k ∈ range r, LU.1.getD (i * n + k) 0 * LU.2.getD (k * n + r) 0 = 0 := by
        apply sum_eq_zero
        intro k hk
        rw [mem_range] at hk
        rw [ih k hk (by omega), zero_mul]
      rw [hz, sub_zero, zero_div]
  rw [h1 i i hi (le_refl _) hi, hrow i hi]
  have hz : ∑ k ∈ range i, LU.1.getD (i * n + k) 0 * LU.2.getD (k * n + i) 0 = 0 := by
    apply sum_eq_zero
    intro k hk
    rw [mem_range] at hk
    rw [hL k hk, zero_mul]
  rw [hz, sub_zero]

/-- C12: a constraint whose bodies all have zero inverse masses gives a zero row
and a zero column of `A`.  When every body a constraint references has an index
below `N` and every body `k` of constraint `i` has `inv_masses[3k]`,
`inv_masses[3k+1]`, `inv_masses[3k+2]` equal to `0`, the matrix built by `lhs`
from the Jacobian has `A[i * M + j] = 0` and `A[j * M + i] = 0` for every
`j < M`, and the pivot `U[i][i]` of `lu_decomposition` is `0`. -/
theorem static_constraint_zero_row (c : compeller2D) (inv_masses : List ℚ) (i : Nat)
    (hi : i < c.m_constrains.length)
    (hidx : ∀ r, r < c.m_constrains.length →
      ∀ e ∈ (c.m_constrains.getD r default).entities, e < c.m_entities.length)
    (hstatic : ∀ k ∈ (c.m_constrains.getD i default).entities,
      inv_masses.getD (3 * k) 0 = 0 ∧ inv_masses.getD (3 * k + 1) 0 = 0 ∧
        inv_masses.getD (3 * k + 2) 0 = 0) :
    (∀ j, j < c.m_constrains.length →
      (lhs c (jacobian c) inv_masses).getD (i * c.m_constrains.length + j) 0 = 0 ∧
      (lhs c (jacobian c) inv_masses).getD (j * c.m_constrains.length + i) 0 = 0) ∧
    (lu_factor c.m_constrains.length (lhs c (jacobian c) inv_masses)).2.getD
      (i * c.m_constrains.length + i) 0 = 0 := by
  have hst : ∀ k ∈ (c.m_constrains.getD i default).entities, ∀ d, d < 3 →
      inv_masses.getD (3 * k + d) 0 = 0 := by
    intro k hk d hd
    obtain ⟨h0, h1, h2⟩ := hstatic k hk
    interval_cases d
    · exact h0
    · exact h1
    · exact h2
  have hrow : ∀ j, j < c.m_constrains.length →
      (lhs c (jacobian c) inv_masses).getD (i * c.m_constrains.length + j) 0 = 0 := by
    intro j hj
    rw [(lhs_inv c (jacobian c) inv_masses).2 i j hi hj, lhs_entry]
    apply sum_eq_zero
    intro k hk
    rw [mem_range] at hk
    rw [mul_right_comm, static_row_term c inv_masses i hi hidx hst k hk, zero_mul]
  have hcol : ∀ j, j < c.m_constrains.length →
      (lhs c (jacobian c) inv_masses).getD (j * c.m_constrains.length + i) 0 = 0 := by
    intro j hj
    rw [(lhs_inv c (jacobian c) inv_masses).2 j i hj hi, lhs_entry]
    apply sum_eq_zero
    intro k hk
    rw [mem_range] at hk
    rw [mul_assoc, static_row_term c inv_masses i hi hidx hst k hk, mul_zero]
  exact ⟨fun j hj => ⟨hrow j hj, hcol j hj⟩, lu_factor_zero_row _ _ i hi hrow⟩

theorem static_constraint_zero_row_witness :
    (∀ j, j < static_pair.m_constrains.length →
      (lhs static_pair (jacobian static_pair) [0, 0, 0, 0, 0, 0, 1, 1, 1]).getD
        (0 * static_pair.m_constrains.length + j) 0 = 0 ∧
      (lhs static_pair (jacobian static_pair) [0, 0, 0, 0, 0, 0, 1, 1, 1]).getD
        (j * static_pair.m_constrains.length + 0) 0 = 0) ∧
    (lu_factor static_pair.m_constrains.length
      (lhs static_pair (jacobian static_pair) [0, 0, 0, 0, 0, 0, 1, 1, 1])).2.getD
      (0 * static_pair.m_constrains.length + 0) 0 = 0 :=
  static_constraint_zero_row static_pair [0, 0, 0, 0, 0, 0, 1, 1, 1] 0 (by decide)
    (by
      intro r hr e he
      have hr2 : r < 2 := hr
      interval_cases r <;> simp [static_pair] at he ⊢ <;> omega)
    (by
      intro k hk
      simp [static_pair] at hk
      rcases hk with rfl | rfl <;> simp)

/-! ## The unsigned counter of the back-substitution -/

/-- The third loop applies its body at the counter values that
`lu_backward_counter` records, in that order. -/
theorem lu_backward_eq_counter (size : Nat) (U : List ℚ) :
    ∀ (fuel i : Nat) (sol : List ℚ),
      lu_backward size U fuel i sol =
        (lu_backward_counter size fuel i).map
          (fun is => is.foldl (fun s k => lu_backward_body size U k s) sol) := by
  intro fuel
  induction fuel with
  | zero => intro i sol; rfl
  | succ fuel ih =>
    intro i sol
    rw [lu_backward, lu_backward_counter]
    by_cases h : i < size
    · rw [if_pos h, if_pos h, ih, Option.map_map]
      rfl
    · rw [if_neg h, if_neg h]
      rfl

theorem lu_backward_counter_eq (size : Nat) (hsize : size < SIZE_T) :
    ∀ (n fuel : Nat), n ≤ size → n < fuel →
      lu_backward_counter size fuel ((n + SIZE_T - 1) % SIZE_T) = some (List.range n).reverse := by
  intro n
  induction n with
  | zero =>
    intro fuel _ hf
    obtain ⟨f, rfl⟩ : ∃ f, fuel = f + 1 := ⟨fuel - 1, by omega⟩
    have hc : (0 + SIZE_T - 1) % SIZE_T = SIZE_T - 1 := by
      simp only [SIZE_T]; norm_num
    rw [hc, lu_backward_counter, if_neg (by omega)]
    rfl
  | succ n ih =>
    intro fuel hn hf
    obtain ⟨f, rfl⟩ : ∃ f, fuel = f + 1 := ⟨fuel - 1, by omega⟩
    have hc : (n + 1 + SIZE_T - 1) % SIZE_T = n := by
      have : n + 1 + SIZE_T - 1 = n + SIZE_T := by omega
      rw [this, Nat.add_mod_right, Nat.mod_eq_of_lt (by omega)]
    rw [hc, lu_backward_counter, if_pos (by omega), ih f (by omega) (by omega),
      List.range_succ, List.reverse_append]
    rfl

/-- C18: termination of the back-substitution with its unsigned counter.  For
every size `M < 2^64` and more fuel than `M`, the loop
`for (i = size - 1; i >= 0 && i < size; i--)`, started at `size - 1` modulo
`2^64`, runs its body at the counter values `M - 1, M - 2, ..., 0` in that order
(`M` times, none for `M = 0`) and then ends; its result is the body applied at
those values in that order, and `lu_decomposition` returns a vector. -/
theorem lu_backward_terminates (size fuel : Nat) (hsize : size < SIZE_T) (hfuel : size < fuel) :
    lu_backward_counter size fuel ((size + SIZE_T - 1) % SIZE_T) =
      some (List.range size).reverse ∧
    (List.range size).reverse.length = size ∧
    (∀ U sol, lu_backward size U fuel ((size + SIZE_T - 1) % SIZE_T) sol =
      some ((List.range size).reverse.foldl (fun s k => lu_backward_body size U k s) sol)) ∧
    ∀ (c : compeller2D) (A b : List ℚ), c.m_constrains.length = size →
      ∃ sol, lu_decomposition fuel c A b = some sol := by
  have hcnt := lu_backward_counter_eq size hsize size fuel (le_refl _) hfuel
  refine ⟨hcnt, by simp, ?_, ?_⟩
  · intro U sol
    rw [lu_backward_eq_counter, hcnt]
    rfl
  · intro c A b hc
    subst hc
    exact ⟨_, lu_decomposition_total fuel c A b hsize hfuel⟩

theorem lu_backward_terminates_witness :
    lu_backward_counter 3 4 ((3 + SIZE_T - 1) % SIZE_T) = some (List.range 3).reverse ∧
    (List.range 3).reverse.length = 3 ∧
    (∀ U sol, lu_backward 3 U 4 ((3 + SIZE_T - 1) % SIZE_T) sol =
      some ((List.range 3).reverse.foldl (fun s k => lu_backward_body 3 U k s) sol)) ∧
    ∀ (c : compeller2D) (A b : List ℚ), c.m_constrains.length = 3 →
      ∃ sol, lu_decomposition 4 c A b = some sol :=
  lu_backward_terminates 3 4 (by decide) (by decide)

/-! ## Bounding boxes -/

theorem unit_box_eq : unit_box = ⟨[⟨0, 0⟩, ⟨1, 1⟩], ⟨0, 0⟩, ⟨1, 1⟩⟩ := by
  norm_num [unit_box, box2D.construct, box2D.bound, FLT_MAX]

theorem shifted_box_eq : shifted_box = ⟨[⟨1 / 2, 1 / 2⟩, ⟨2, 2⟩], ⟨1 / 2, 1 / 2⟩, ⟨2, 2⟩⟩ := by
  norm_num [shifted_box, box2D.construct, box2D.bound, FLT_MAX]

theorem far_box_eq : far_box = ⟨[⟨-5, -5⟩, ⟨-4, -4⟩], ⟨-5, -5⟩, ⟨-4, -4⟩⟩ := by
  norm_num [far_box, box2D.construct, box2D.bound, FLT_MAX]

/-- What `overlaps` tests: the argument's corners are not above or to the right
of the corresponding corners of the box itself. -/
theorem overlaps_iff (a b : box2D) :
    a.overlaps b = true ↔
      b.m_min.x ≤ a.m_min.x ∧ b.m_min.y ≤ a.m_min.y ∧
        b.m_max.x ≤ a.m_max.x ∧ b.m_max.y ≤ a.m_max.y := by
  have hx : ∀ u v : vec2, (u - v).x = u.x - v.x := fun _ _ => rfl
  have hy : ∀ u v : vec2, (u - v).y = u.y - v.y := fun _ _ => rfl
  unfold box2D.overlaps
  simp only [hx, hy, gt_iff_lt, sub_pos]
  by_cases h1 : a.m_min.x < b.m_min.x ∨ a.m_min.y < b.m_min.y
  · rw [if_pos h1]
    constructor
    · intro h; exact absurd h (by decide)
    · rintro ⟨h2, h3, -, -⟩
      rcases h1 with h1 | h1
      · exact absurd h1 (not_lt.mpr h2)
      · exact absurd h1 (not_lt.mpr h3)
  · rw [if_neg h1]
    by_cases h2 : a.m_max.x < b.m_max.x ∨ a.m_max.y < b.m_max.y
    · rw [if_pos h2]
      constructor
      · intro h; exact absurd h (by decide)
      · rintro ⟨-, -, h3, h4⟩
        rcases h2 with h2 | h2
        · exact absurd h2 (not_lt.mpr h3)
        · exact absurd h2 (not_lt.mpr h4)
    · rw [if_neg h2]
      rw [not_or, not_lt, not_lt] at h1 h2
      exact ⟨fun _ => ⟨h1.1, h1.2, h2.1, h2.2⟩, fun _ => rfl⟩

/-- C15 (the code differs): the unit square `[0, 1]²` and the square
`[1/2, 2]²` share points (the four inequalities of the claim hold), yet
`overlaps` of the first with the second is `false` while `overlaps` of the second
with the first is `true`; and `overlaps` of the unit square with the disjoint
square `[-5, -4]²` is `true`. -/
theorem overlaps_not_intersection :
    (unit_box.m_min.x ≤ unit_box.m_max.x ∧ unit_box.m_min.y ≤ unit_box.m_max.y) ∧
    (shifted_box.m_min.x ≤ shifted_box.m_max.x ∧ shifted_box.m_min.y ≤ shifted_box.m_max.y) ∧
    (far_box.m_min.x ≤ far_box.m_max.x ∧ far_box.m_min.y ≤ far_box.m_max.y) ∧
    (unit_box.m_min.x ≤ shifted_box.m_max.x ∧ shifted_box.m_min.x ≤ unit_box.m_max.x ∧
      unit_box.m_min.y ≤ shifted_box.m_max.y ∧ shifted_box.m_min.y ≤ unit_box.m_max.y) ∧
    unit_box.overlaps shifted_box = false ∧
    shifted_box.overlaps unit_box = true ∧
    ¬ (unit_box.m_min.x ≤ far_box.m_max.x) ∧
    unit_box.overlaps far_box = true := by
  rw [unit_box_eq, shifted_box_eq, far_box_eq]
  norm_num [box2D.overlaps, HSub.hSub, Sub.sub]

theorem fold_min_spec (f : vec2 → ℚ) (vs : List vec2) :
    ∀ m, fold_min f m vs ≤ m ∧ (∀ v ∈ vs, fold_min f m vs ≤ f v) ∧
      (fold_min f m vs = m ∨ ∃ v ∈ vs, f v = fold_min f m vs) := by
  induction vs with
  | nil => intro m; exact ⟨le_refl _, fun v hv => absurd hv (List.not_mem_nil v), Or.inl rfl⟩
  | cons w ws ih =>
    intro m
    have hstep : fold_min f m (w :: ws) = fold_min f (if m > f w then f w else m) ws := rfl
    obtain ⟨h1, h2, h3⟩ := ih (if m > f w then f w else m)
    rw [hstep]
    have hle : (if m > f w then f w else m) ≤ m ∧ (if m > f w then f w else m) ≤ f w := by
      by_cases h : m > f w
      · rw [if_pos h]; exact ⟨le_of_lt h, le_refl _⟩
      · rw [if_neg h]; exact ⟨le_refl _, not_lt.mp h⟩
    refine ⟨le_trans h1 hle.1, ?_, ?_⟩
    · intro v hv
      rcases List.mem_cons.mp hv with rfl | hv
      · exact le_trans h1 hle.2
      · exact h2 v hv
    · rcases h3 with h3 | ⟨v, hv, h3⟩
      · by_cases h : m > f w
        · rw [if_pos h] at h3
          exact Or.inr ⟨w, List.mem_cons_self _ _, by rw [if_pos h]; exact h3.symm⟩
        · rw [if_neg h] at h3
          exact Or.inl (by rw [if_neg h]; exact h3)
      · exact Or.inr ⟨v, List.mem_cons_of_mem _ hv, h3⟩

theorem fold_max_spec (f : vec2 → ℚ) (vs : List vec2) :
    ∀ m, m ≤ fold_max f m vs ∧ (∀ v ∈ vs, f v ≤ fold_max f m vs) ∧
      (fold_max f m vs = m ∨ ∃ v ∈ vs, f v = fold_max f m vs) := by
  induction vs with
  | nil => intro m; exact ⟨le_refl _, fun v hv => absurd hv (List.not_mem_nil v), Or.inl rfl⟩
  | cons w ws ih =>
    intro m
    have hstep : fold_max f m (w :: ws) = fold_max f (if m < f w then f w else m) ws := rfl
    obtain ⟨h1, h2, h3⟩ := ih (if m < f w then f w else m)
    rw [hstep]
    have hle : m ≤ (if m < f w then f w else m) ∧ f w ≤ (if m < f w then f w else m) := by
      by_cases h : m < f w
      · rw [if_pos h]; exact ⟨le_of_lt h, le_refl _⟩
      · rw [if_neg h]; exact ⟨le_refl _, not_lt.mp h⟩
    refine ⟨le_trans hle.1 h1, ?_, ?_⟩
    · intro v hv
      rcases List.mem_cons.mp hv with rfl | hv
      · exact le_trans hle.2 h1
      · exact h2 v hv
    · rcases h3 with h3 | ⟨v, hv, h3⟩
      · by_cases h : m < f w
        · rw [if_pos h] at h3
          exact Or.inr ⟨w, List.mem_cons_self _ _, by rw [if_pos h]; exact h3.symm⟩
        · rw [if_neg h] at h3
          exact Or.inl (by rw [if_neg h]; exact h3)
      · exact Or.inr ⟨v, List.mem_cons_of_mem _ hv, h3⟩

/-- The loop of `bound` keeps four independent running extrema. -/
theorem bound_fold (vs : List vec2) :
    ∀ b : box2D,
      (vs.foldl (fun b v =>
        let b := if b.m_min.x > v.x then { b with m_min := { b.m_min with x := v.x } } else b
        let b := if b.m_min.y > v.y then { b with m_min := { b.m_min with y := v.y } } else b
        let b := if b.m_max.x < v.x then { b with m_max := { b.m_max with x := v.x } } else b
        let b := if b.m_max.y < v.y then { b with m_max := { b.m_max with y := v.y } } else b
        b) b) =
      ⟨b.m_vertices, ⟨fold_min vec2.x b.m_min.x vs, fold_min vec2.y b.m_min.y vs⟩,
        ⟨fold_max vec2.x b.m_max.x vs, fold_max vec2.y b.m_max.y vs⟩⟩ := by
  induction vs with
  | nil => intro b; rfl
  | cons w ws ih =>
    intro b
    rw [List.foldl_cons, ih]
    have e1 : fold_min vec2.x b.m_min.x (w :: ws) =
        fold_min vec2.x (if b.m_min.x > w.x then w.x else b.m_min.x) ws := rfl
    have e2 : fold_min vec2.y b.m_min.y (w :: ws) =
        fold_min vec2.y (if b.m_min.y > w.y then w.y else b.m_min.y) ws := rfl
    have e3 : fold_max vec2.x b.m_max.x (w :: ws) =
        fold_max vec2.x (if b.m_max.x < w.x then w.x else b.m_max.x) ws := rfl
    have e4 : fold_max vec2.y b.m_max.y (w :: ws) =
        fold_max vec2.y (if b.m_max.y < w.y then w.y else b.m_max.y) ws := rfl
    rw [e1, e2, e3, e4]
    by_cases h1 : b.m_min.x > w.x <;> by_cases h2 : b.m_min.y > w.y <;>
      by_cases h3 : b.m_max.x < w.x <;> by_cases h4 : b.m_max.y < w.y <;>
      simp [h1, h2, h3, h4]

theorem construct_eq (vs : List vec2) :
    box2D.construct vs =
      ⟨vs, ⟨fold_min vec2.x FLT_MAX vs, fold_min vec2.y FLT_MAX vs⟩,
        ⟨fold_max vec2.x (-FLT_MAX) vs, fold_max vec2.y (-FLT_MAX) vs⟩⟩ := by
  unfold box2D.construct box2D.bound
  rw [bound_fold]

/-- C19: `bound` computes the tight bounding box.  For a non-empty list of
vertices whose coordinates are finite floats (between `-FLT_MAX` and
`FLT_MAX`), every vertex `v` has `min.x <= v.x <= max.x` and
`min.y <= v.y <= max.y`, and each of the four bounds is the coordinate of some
vertex; for the empty list `min` is `(FLT_MAX, FLT_MAX)` and `max` is
`(-FLT_MAX, -FLT_MAX)`. -/
theorem bound_tight (vs : List vec2) (hne : vs ≠ [])
    (hfin : ∀ v ∈ vs, -FLT_MAX ≤ v.x ∧ v.x ≤ FLT_MAX ∧ -FLT_MAX ≤ v.y ∧ v.y ≤ FLT_MAX) :
    (∀ v ∈ vs, (box2D.construct vs).m_min.x ≤ v.x ∧ v.x ≤ (box2D.construct vs).m_max.x ∧
      (box2D.construct vs).m_min.y ≤ v.y ∧ v.y ≤ (box2D.construct vs).m_max.y) ∧
    (∃ v ∈ vs, v.x = (box2D.construct vs).m_min.x) ∧
    (∃ v ∈ vs, v.y = (box2D.construct vs).m_min.y) ∧
    (∃ v ∈ vs, v.x = (box2D.construct vs).m_max.x) ∧
    (∃ v ∈ vs, v.y = (box2D.construct vs).m_max.y) ∧
    (box2D.construct []).m_min = ⟨FLT_MAX, FLT_MAX⟩ ∧
    (box2D.construct []).m_max = ⟨-FLT_MAX, -FLT_MAX⟩ := by
  obtain ⟨w, hw⟩ := List.exists_mem_of_ne_nil vs hne
  obtain ⟨a1, a2, a3⟩ := fold_min_spec vec2.x vs FLT_MAX
  obtain ⟨b1, b2, b3⟩ := fold_min_spec vec2.y vs FLT_MAX
  obtain ⟨c1, c2, c3⟩ := fold_max_spec vec2.x vs (-FLT_MAX)
  obtain ⟨d1, d2, d3⟩ := fold_max_spec vec2.y vs (-FLT_MAX)
  rw [construct_eq]
  refine ⟨fun v hv => ⟨a2 v hv, c2 v hv, b2 v hv, d2 v hv⟩, ?_, ?_, ?_, ?_, rfl, rfl⟩
  · rcases a3 with h | h
    · have hle : w.x ≤ fold_min vec2.x FLT_MAX vs := by rw [h]; exact (hfin w hw).2.1
      exact ⟨w, hw, le_antisymm hle (a2 w hw)⟩
    · exact h
  · rcases b3 with h | h
    · have hle : w.y ≤ fold_min vec2.y FLT_MAX vs := by rw [h]; exact (hfin w hw).2.2.2
      exact ⟨w, hw, le_antisymm hle (b2 w hw)⟩
    · exact h
  · rcases c3 with h | h
    · have hle : fold_max vec2.x (-FLT_MAX) vs ≤ w.x := by rw [h]; exact (hfin w hw).1
      exact ⟨w, hw, le_antisymm (c2 w hw) hle⟩
    · exact h
  · rcases d3 with h | h
    · have hle : fold_max vec2.y (-FLT_MAX) vs ≤ w.y := by rw [h]; exact (hfin w hw).2.2.1
      exact ⟨w, hw, le_antisymm (d2 w hw) hle⟩
    · exact h

theorem bound_tight_witness :
    (∀ v ∈ [(⟨0, 0⟩ : vec2), ⟨1, 1⟩],
      (box2D.construct [⟨0, 0⟩, ⟨1, 1⟩]).m_min.x ≤ v.x ∧
      v.x ≤ (box2D.construct [⟨0, 0⟩, ⟨1, 1⟩]).m_max.x ∧
      (box2D.construct [⟨0, 0⟩, ⟨1, 1⟩]).m_min.y ≤ v.y ∧
      v.y ≤ (box2D.construct [⟨0, 0⟩, ⟨1, 1⟩]).m_max.y) ∧
    (∃ v ∈ [(⟨0, 0⟩ : vec2), ⟨1, 1⟩], v.x = (box2D.construct [⟨0, 0⟩, ⟨1, 1⟩]).m_min.x) ∧
    (∃ v ∈ [(⟨0, 0⟩ : vec2), ⟨1, 1⟩], v.y = (box2D.construct [⟨0, 0⟩, ⟨1, 1⟩]).m_min.y) ∧
    (∃ v ∈ [(⟨0, 0⟩ : vec2), ⟨1, 1⟩], v.x = (box2D.construct [⟨0, 0⟩, ⟨1, 1⟩]).m_max.x) ∧
    (∃ v ∈ [(⟨0, 0⟩ : vec2), ⟨1, 1⟩], v.y = (box2D.construct [⟨0, 0⟩, ⟨1, 1⟩]).m_max.y) ∧
    (box2D.construct []).m_min = ⟨FLT_MAX, FLT_MAX⟩ ∧
    (box2D.construct []).m_max = ⟨-FLT_MAX, -FLT_MAX⟩ :=
  bound_tight [⟨0, 0⟩, ⟨1, 1⟩] (by simp) (by
    intro v hv
    simp at hv
    rcases hv with rfl | rfl <;> norm_num [FLT_MAX])

/-! ## The ODE callback -/

/-- The vector that `ode` builds: six entries per body. -/
theorem ode_result (entities : List (vec2 × ℚ)) (state : List ℚ) :
    (forLoop 0 entities.length (fun i result =>
      result ++ [state.getD (6 * i + 3) 0, state.getD (6 * i + 4) 0, state.getD (6 * i + 5) 0,
        (entities.getD i (⟨0, 0⟩, 0)).1.x, (entities.getD i (⟨0, 0⟩, 0)).1.y,
        (entities.getD i (⟨0, 0⟩, 0)).2]) []).length = 6 * entities.length ∧
    ∀ i, i < entities.length → ∀ d, d < 6 →
      (forLoop 0 entities.length (fun i result =>
        result ++ [state.getD (6 * i + 3) 0, state.getD (6 * i + 4) 0,
          state.getD (6 * i + 5) 0,
          (entities.getD i (⟨0, 0⟩, 0)).1.x, (entities.getD i (⟨0, 0⟩, 0)).1.y,
          (entities.getD i (⟨0, 0⟩, 0)).2]) []).getD (6 * i + d) 0 =
      [state.getD (6 * i + 3) 0, state.getD (6 * i + 4) 0, state.getD (6 * i + 5) 0,
        (entities.getD i (⟨0, 0⟩, 0)).1.x, (entities.getD i (⟨0, 0⟩, 0)).1.y,
        (entities.getD i (⟨0, 0⟩, 0)).2].getD d 0 := by
  have key := forLoop_inv
    (fun n (r : List ℚ) => r.length = 6 * n ∧ ∀ i, i < n → ∀ d, d < 6 →
      r.getD (6 * i + d) 0 =
      [state.getD (6 * i + 3) 0, state.getD (6 * i + 4) 0, state.getD (6 * i + 5) 0,
        (entities.getD i (⟨0, 0⟩, 0)).1.x, (entities.getD i (⟨0, 0⟩, 0)).1.y,
        (entities.getD i (⟨0, 0⟩, 0)).2].getD d 0)
    0 entities.length (Nat.zero_le _)
    (fun i result =>
      result ++ [state.getD (6 * i + 3) 0, state.getD (6 * i + 4) 0, state.getD (6 * i + 5) 0,
        (entities.getD i (⟨0, 0⟩, 0)).1.x, (entities.getD i (⟨0, 0⟩, 0)).1.y,
        (entities.getD i (⟨0, 0⟩, 0)).2])
    []
    ⟨rfl, fun i hi => by omega⟩
    (by
      intro n r _ _ ⟨hlen, hr⟩
      beta_reduce
      refine ⟨by rw [List.length_append, hlen]; simp; omega, fun i hi d hd => ?_⟩
      by_cases hin : i < n
      · rw [List.getD_append _ _ _ _ (by omega), hr i hin d hd]
      · have hi2 : i = n := by omega
        subst hi2
        rw [List.getD_append_right _ _ _ _ (by omega), hlen, Nat.add_sub_cancel_left])
  exact key

/-- C13: shape of the result of `ode`.  For an engine with `N` bodies (a number
that `retrieve` and `reset_accelerations` keep) and a state of length `6N`, the
returned vector has the length of the state; for every body `i` its entries
`6i`, `6i + 1`, `6i + 2` are `state[6i + 3]`, `state[6i + 4]`, `state[6i + 5]`
and its entries `6i + 3`, `6i + 4`, `6i + 5` are the accumulated acceleration
`(x, y, angular)` of body `i` in the engine left by `retrieve(state)` and
`reset_accelerations()`. -/
theorem ode_shape (retrieve : List ℚ → engine2D → engine2D)
    (reset_accelerations : engine2D → engine2D) (t : ℚ) (state : List ℚ) (engine : engine2D)
    (hN : (reset_accelerations (retrieve state engine)).m_entities.length =
      engine.m_entities.length)
    (hlen : state.length = 6 * engine.m_entities.length) :
    (ode retrieve reset_accelerations t state engine).1.length = state.length ∧
    (ode retrieve reset_accelerations t state engine).2 =
      reset_accelerations (retrieve state engine) ∧
    ∀ i, i < engine.m_entities.length →
      (∀ d, d < 3 → (ode retrieve reset_accelerations t state engine).1.getD (6 * i + d) 0 =
        state.getD (6 * i + 3 + d) 0) ∧
      (ode retrieve reset_accelerations t state engine).1.getD (6 * i + 3) 0 =
        ((reset_accelerations (retrieve state engine)).m_entities.getD i (⟨0, 0⟩, 0)).1.x ∧
      (ode retrieve reset_accelerations t state engine).1.getD (6 * i + 4) 0 =
        ((reset_accelerations (retrieve state engine)).m_entities.getD i (⟨0, 0⟩, 0)).1.y ∧
      (ode retrieve reset_accelerations t state engine).1.getD (6 * i + 5) 0 =
        ((reset_accelerations (retrieve state engine)).m_entities.getD i (⟨0, 0⟩, 0)).2 := by
  obtain ⟨h1, h2⟩ := ode_result (reset_accelerations (retrieve state engine)).m_entities state
  refine ⟨?_, rfl, fun i hi => ⟨fun d hd => ?_, ?_, ?_, ?_⟩⟩
  · rw [hlen, ← hN]
    exact h1
  · have := h2 i (hN ▸ hi) d (by omega)
    refine this.trans ?_
    interval_cases d <;> rfl
  · exact h2 i (hN ▸ hi) 3 (by omega)
  · exact h2 i (hN ▸ hi) 4 (by omega)
  · exact h2 i (hN ▸ hi) 5 (by omega)

theorem ode_shape_witness :
    (ode (fun _ e => e) id 0 [1, 2, 3, 4, 5, 6] engine_one_constraint).1.length =
      [1, 2, 3, 4, 5, (6 : ℚ)].length ∧
    (ode (fun _ e => e) id 0 [1, 2, 3, 4, 5, 6] engine_one_constraint).2 =
      id ((fun (_ : List ℚ) (e : engine2D) => e) [1, 2, 3, 4, 5, 6] engine_one_constraint) ∧
    ∀ i, i < engine_one_constraint.m_entities.length →
      (∀ d, d < 3 →
        (ode (fun _ e => e) id 0 [1, 2, 3, 4, 5, 6] engine_one_constraint).1.getD (6 * i + d) 0 =
          [1, 2, 3, 4, 5, (6 : ℚ)].getD (6 * i + 3 + d) 0) ∧
      (ode (fun _ e => e) id 0 [1, 2, 3, 4, 5, 6] engine_one_constraint).1.getD (6 * i + 3) 0 =
        ((id ((fun (_ : List ℚ) (e : engine2D) => e) [1, 2, 3, 4, 5, 6]
          engine_one_constraint)).m_entities.getD i (⟨0, 0⟩, 0)).1.x ∧
      (ode (fun _ e => e) id 0 [1, 2, 3, 4, 5, 6] engine_one_constraint).1.getD (6 * i + 4) 0 =
        ((id ((fun (_ : List ℚ) (e : engine2D) => e) [1, 2, 3, 4, 5, 6]
          engine_one_constraint)).m_entities.getD i (⟨0, 0⟩, 0)).1.y ∧
      (ode (fun _ e => e) id 0 [1, 2, 3, 4, 5, 6] engine_one_constraint).1.getD (6 * i + 5) 0 =
        ((id ((fun (_ : List ℚ) (e : engine2D) => e) [1, 2, 3, 4, 5, 6]
          engine_one_constraint)).m_entities.getD i (⟨0, 0⟩, 0)).2 :=
  ode_shape (fun _ e => e) id 0 [1, 2, 3, 4, 5, 6] engine_one_constraint rfl rfl

/-- C14, as the code has it: `ode` does not call the constraint solver.  Its
result depends on the engine only through the accumulated accelerations of the
bodies left by `retrieve(state)` and `reset_accelerations()`: two engines that
agree on those give the same vector, whatever constraints, stiffness, dampening
and inverse masses they hold. -/
theorem ode_ignores_constraints (retrieve : List ℚ → engine2D → engine2D)
    (reset_accelerations : engine2D → engine2D) (t : ℚ) (state : List ℚ)
    (engine1 engine2 : engine2D)
    (h : (reset_accelerations (retrieve state engine1)).m_entities =
      (reset_accelerations (retrieve state engine2)).m_entities) :
    (ode retrieve reset_accelerations t state engine1).1 =
      (ode retrieve reset_accelerations t state engine2).1 := by
  unfold ode
  simp only [h]

theorem ode_ignores_constraints_witness :
    (ode (fun _ e => e) id 0 [0, 0, 0, 0, 0, 0] engine_one_constraint).1 =
      (ode (fun _ e => e) id 0 [0, 0, 0, 0, 0, 0] engine_no_constraint).1 :=
  ode_ignores_constraints (fun _ e => e) id 0 [0, 0, 0, 0, 0, 0] engine_one_constraint
    engine_no_constraint rfl

/-- C14 fails as stated: for one body at rest under the constraint of
`one_constraint`, `ode` returns the unconstrained vector of zeros, while the
solver applied to that vector would leave the acceleration `(-5/2, 0, 0)`. -/
theorem ode_without_solver :
    (ode (fun _ e => e) id 0 [0, 0, 0, 0, 0, 0] engine_one_constraint).1 =
      [0, 0, 0, 0, 0, 0] ∧
    solve_and_load_constrains 2 engine_one_constraint.m_compeller [0, 0, 0, 0, 0, 0]
      engine_one_constraint.m_inv_masses = some [0, 0, 0, -5 / 2, 0, 0] ∧
    (ode (fun _ e => e) id 0 [0, 0, 0, 0, 0, 0] engine_one_constraint).1.getD 3 0 ≠ -5 / 2 := by
  have h1 : (ode (fun _ e => e) id 0 [0, 0, 0, 0, 0, 0] engine_one_constraint).1 =
      [0, 0, 0, 0, 0, 0] := by
    norm_num [ode, engine_one_constraint, forLoop, iterate]
  refine ⟨h1, ?_, ?_⟩
  · norm_num [engine_one_constraint, solve_and_load_constrains, lu_decomposition, lu_backward,
      lu_forward, lu_factor, rhs, lhs, jacobian, jacobian_derivative, constrain_matrix,
      load_constrain_accels, one_constraint, grad_x, grad_zero, forLoop, iterate]
  · rw [h1]
    norm_num

/-! ## Index safety -/

theorem read_eq {v : List ℚ} {i : Nat} (h : i < v.length) : read v i = some (v.getD i 0) := by
  rw [read, List.getElem?_eq_getElem h, List.getD_eq_getElem _ _ h]

theorem write_eq {v : List ℚ} {i : Nat} (x : ℚ) (h : i < v.length) :
    write v i x = some (v.set i x) := by
  rw [write, if_pos h]

theorem forLoopM_succ {σ : Type} (lo hi : Nat) (h : lo ≤ hi) (body : Nat → σ → Option σ)
    (s : σ) : forLoopM lo (hi + 1) body s = (forLoopM lo hi body s).bind (body hi) := by
  unfold forLoopM
  rw [Nat.succ_sub h]
  show (iterateM lo body s (hi - lo)).bind (body (lo + (hi - lo))) = _
  rw [Nat.add_sub_cancel' h]

/-- A checked loop whose body never fails on the states of an invariant is the
unchecked loop. -/
theorem forLoopM_eq {σ : Type} (P : σ → Prop) (lo hi : Nat) (bodyM : Nat → σ → Option σ)
    (body : Nat → σ → σ) (s : σ) (h0 : P s)
    (hstep : ∀ i s, lo ≤ i → i < hi → P s → bodyM i s = some (body i s) ∧ P (body i s)) :
    forLoopM lo hi bodyM s = some (forLoop lo hi body s) ∧ P (forLoop lo hi body s) := by
  by_cases h : lo ≤ hi
  · induction hi, h using Nat.le_induction with
    | base =>
      rw [forLoop_empty lo lo (le_refl _)]
      exact ⟨by simp [forLoopM, iterateM], h0⟩
    | succ n hn ih =>
      obtain ⟨e, p⟩ := ih (fun i s h1 h2 hp => hstep i s h1 (Nat.lt_succ_of_lt h2) hp)
      obtain ⟨e2, p2⟩ := hstep n _ hn (Nat.lt_succ_self n) p
      rw [forLoopM_succ lo n hn, forLoop_succ lo n hn, e, Option.some_bind]
      exact ⟨e2, p2⟩
  · rw [forLoop_empty lo hi (by omega)]
    refine ⟨?_, h0⟩
    unfold forLoopM
    rw [Nat.sub_eq_zero_of_le (by omega)]
    rfl

theorem lhs_checked_eq (c : compeller2D) (jcb inv_masses : List ℚ)
    (hj : jcb.length = c.m_constrains.length * (3 * c.m_entities.length))
    (hw : inv_masses.length = 3 * c.m_entities.length) :
    lhs_checked c jcb inv_masses = some (lhs c jcb inv_masses) := by
  refine (forLoopM_eq (fun A : List ℚ => A.length = c.m_constrains.length * c.m_constrains.length)
    0 _ _ _ _ (by simp) ?_).1
  intro i A _ hi hA
  refine forLoopM_eq (fun A : List ℚ => A.length = c.m_constrains.length * c.m_constrains.length)
    0 _ _ _ _ hA ?_
  intro j A _ hj2 hA
  refine forLoopM_eq (fun A : List ℚ => A.length = c.m_constrains.length * c.m_constrains.length)
    0 _ _ _ _ hA ?_
  intro k A _ hk hA
  have b1 : i * c.m_constrains.length + j < A.length := hA ▸ flat_index_lt hi hj2
  have b2 : i * (POS_PER_ENTITY * c.m_entities.length) + k < jcb.length :=
    hj ▸ flat_index_lt hi hk
  have b3 : j * (POS_PER_ENTITY * c.m_entities.length) + k < jcb.length :=
    hj ▸ flat_index_lt hj2 hk
  have b4 : k < inv_masses.length := hw ▸ hk
  simp only [read_eq b1, read_eq b2, read_eq b3, read_eq b4, write_eq _ b1, Option.bind_eq_bind,
    Option.some_bind, List.length_set, hA, and_self]

theorem constrain_matrix_checked_eq (c : compeller2D)
    (grad : constrain_interface → Nat → Nat → ℚ)
    (hidx : ∀ i, i < c.m_constrains.length →
      ∀ e ∈ (c.m_constrains.getD i default).entities, e < c.m_entities.length) :
    constrain_matrix_checked c grad = some (constrain_matrix c grad) := by
  refine (forLoopM_eq (fun cm : List ℚ =>
    cm.length = c.m_constrains.length * (3 * c.m_entities.length)) 0 _ _ _ _ (by simp) ?_).1
  intro i cm _ hi hcm
  have hci : c.m_constrains[i]? = some (c.m_constrains.getD i default) := by
    rw [List.getElem?_eq_getElem hi, List.getD_eq_getElem _ _ hi]
  have hE := hidx i hi
  simp only [hci, Option.bind_eq_bind, Option.some_bind]
  generalize c.m_constrains.getD i default = ci at hE ⊢
  refine forLoopM_eq (fun cm : List ℚ =>
    cm.length = c.m_constrains.length * (3 * c.m_entities.length)) 0 _ _ _ _ hcm ?_
  intro j cm _ hj hcm
  have hej : ci.entities[j]? = some (ci.entities.getD j 0) := by
    rw [List.getElem?_eq_getElem hj, List.getD_eq_getElem _ _ hj]
  have heN : ci.entities.getD j 0 < c.m_entities.length := by
    rw [List.getD_eq_getElem _ _ hj]
    exact hE _ (List.getElem_mem _)
  simp only [hej, Option.bind_eq_bind, Option.some_bind]
  generalize ci.entities.getD j 0 = e at heN ⊢
  refine forLoopM_eq (fun cm : List ℚ =>
    cm.length = c.m_constrains.length * (3 * c.m_entities.length)) 0 _ _ _ _ hcm ?_
  intro k cm _ hk hcm
  have hk3 : k < 3 := hk
  have b1 : i * (POS_PER_ENTITY * c.m_entities.length) + e * POS_PER_ENTITY + k < cm.length := by
    rw [hcm, Nat.add_assoc]
    exact flat_index_lt hi (by simp only [POS_PER_ENTITY]; omega)
  simp only [write_eq _ b1, List.length_set, hcm, and_self]

theorem rhs_inner_checked_eq (c : compeller2D) (jcb djcb stchanges inv_masses : List ℚ)
    (hj : jcb.length = c.m_constrains.length * (3 * c.m_entities.length))
    (hdj : djcb.length = c.m_constrains.length * (3 * c.m_entities.length))
    (hst : stchanges.length = 6 * c.m_entities.length)
    (hw : inv_masses.length = 3 * c.m_entities.length)
    (i : Nat) (hi : i < c.m_constrains.length) (b : List ℚ)
    (hb : b.length = c.m_constrains.length) :
    forLoopM 0 c.m_entities.length (fun j b =>
      forLoopM 0 POS_PER_ENTITY (fun k b => do
        let bi ← read b i
        let dj ← read djcb (i * (POS_PER_ENTITY * c.m_entities.length) + (j * POS_PER_ENTITY + k))
        let q ← read stchanges (j * VAR_PER_ENTITY + k)
        let jc ← read jcb (i * (POS_PER_ENTITY * c.m_entities.length) + (j * POS_PER_ENTITY + k))
        let a ← read stchanges (j * VAR_PER_ENTITY + k + POS_PER_ENTITY)
        let w ← read inv_masses (j * POS_PER_ENTITY + k)
        write b i (bi - (dj * q + jc * a) * w)) b) b =
    some (forLoop 0 c.m_entities.length (fun j b =>
      forLoop 0 POS_PER_ENTITY (fun k b =>
        b.set i (b.getD i 0 -
          (djcb.getD (i * (POS_PER_ENTITY * c.m_entities.length) + (j * POS_PER_ENTITY + k)) 0 *
              stchanges.getD (j * VAR_PER_ENTITY + k) 0 +
            jcb.getD (i * (POS_PER_ENTITY * c.m_entities.length) + (j * POS_PER_ENTITY + k)) 0 *
              stchanges.getD (j * VAR_PER_ENTITY + k + POS_PER_ENTITY) 0) *
          inv_masses.getD (j * POS_PER_ENTITY + k) 0)) b) b) ∧
    (forLoop 0 c.m_entities.length (fun j b =>
      forLoop 0 POS_PER_ENTITY (fun k b =>
        b.set i (b.getD i 0 -
          (djcb.getD (i * (POS_PER_ENTITY * c.m_entities.length) + (j * POS_PER_ENTITY + k)) 0 *
              stchanges.getD (j * VAR_PER_ENTITY + k) 0 +
            jcb.getD (i * (POS_PER_ENTITY * c.m_entities.length) + (j * POS_PER_ENTITY + k)) 0 *
              stchanges.getD (j * VAR_PER_ENTITY + k + POS_PER_ENTITY) 0) *
          inv_masses.getD (j * POS_PER_ENTITY + k) 0)) b) b).length = c.m_constrains.length := by
  refine forLoopM_eq (fun b : List ℚ => b.length = c.m_constrains.length) 0 _ _ _ _ hb ?_
  intro j b _ hjN hb
  refine forLoopM_eq (fun b : List ℚ => b.length = c.m_constrains.length) 0 _ _ _ _ hb ?_
  intro k b _ hk hb
  have hk3 : k < 3 := hk
  have b1 : i < b.length := hb ▸ hi
  have hcol : j * POS_PER_ENTITY + k < 3 * c.m_entities.length := by
    simp only [POS_PER_ENTITY]; omega
  have b2 : i * (POS_PER_ENTITY * c.m_entities.length) + (j * POS_PER_ENTITY + k) <
      djcb.length := hdj ▸ flat_index_lt hi hcol
  have b3 : i * (POS_PER_ENTITY * c.m_entities.length) + (j * POS_PER_ENTITY + k) <
      jcb.length := hj ▸ flat_index_lt hi hcol
  have b4 : j * VAR_PER_ENTITY + k < stchanges.length := by
    simp only [VAR_PER_ENTITY]; omega
  have b5 : j * VAR_PER_ENTITY + k + POS_PER_ENTITY < stchanges.length := by
    simp only [VAR_PER_ENTITY, POS_PER_ENTITY]; omega
  have b6 : j * POS_PER_ENTITY + k < inv_masses.length := hw ▸ hcol
  simp only [read_eq b1, read_eq b2, read_eq b3, read_eq b4, read_eq b5, read_eq b6,
    write_eq _ b1, Option.bind_eq_bind, Option.some_bind, List.length_set, hb, and_self]

theorem rhs_checked_eq (c : compeller2D) (jcb djcb stchanges inv_masses : List ℚ)
    (hj : jcb.length = c.m_constrains.length * (3 * c.m_entities.length))
    (hdj : djcb.length = c.m_constrains.length * (3 * c.m_entities.length))
    (hst : stchanges.length = 6 * c.m_entities.length)
    (hw : inv_masses.length = 3 * c.m_entities.length) :
    rhs_checked c jcb djcb stchanges inv_masses =
      some (rhs c jcb djcb stchanges inv_masses) := by
  refine (forLoopM_eq (fun b : List ℚ => b.length = c.m_constrains.length)
    0 _ _ _ _ (by simp) ?_).1
  intro i b _ hi hb
  obtain ⟨e1, p1⟩ := rhs_inner_checked_eq c jcb djcb stchanges inv_masses hj hdj hst hw i hi b hb
  have hci : c.m_constrains[i]? = some (c.m_constrains.getD i default) := by
    rw [List.getElem?_eq_getElem hi, List.getD_eq_getElem _ _ hi]
  have b1 := p1 ▸ hi
  simp only [Option.bind_eq_bind] at e1
  simp only [e1, hci, read_eq b1, write_eq _ b1, Option.bind_eq_bind, Option.some_bind,
    List.length_set, p1, and_self]

theorem load_constrain_accels_checked_eq (c : compeller2D) (jcb lambda stchanges : List ℚ)
    (hj : jcb.length = c.m_constrains.length * (3 * c.m_entities.length))
    (hl : lambda.length = c.m_constrains.length)
    (hst : stchanges.length = 6 * c.m_entities.length) :
    load_constrain_accels_checked c jcb lambda stchanges =
      some (load_constrain_accels c jcb lambda stchanges) := by
  refine (forLoopM_eq (fun s : List ℚ => s.length = 6 * c.m_entities.length)
    0 _ _ _ _ hst ?_).1
  intro i s _ hi hs
  have hei : c.m_entities[i]? = some (c.m_entities.getD i ⟨false⟩) := by
    rw [List.getElem?_eq_getElem hi, List.getD_eq_getElem _ _ hi]
  simp only [hei, Option.bind_eq_bind, Option.some_bind]
  by_cases hd : (c.m_entities.getD i ⟨false⟩).dynamic = true
  · rw [if_pos hd, if_pos hd]
    refine forLoopM_eq (fun s : List ℚ => s.length = 6 * c.m_entities.length) 0 _ _ _ _ hs ?_
    intro j s _ hj3 hs
    refine forLoopM_eq (fun s : List ℚ => s.length = 6 * c.m_entities.length) 0 _ _ _ _ hs ?_
    intro k s _ hk hs
    have hj3' : j < 3 := hj3
    have b1 : VAR_PER_ENTITY * i + j + POS_PER_ENTITY < s.length := by
      simp only [VAR_PER_ENTITY, POS_PER_ENTITY]; omega
    have b2 : (i * POS_PER_ENTITY + j) * c.m_constrains.length + k < jcb.length := by
      rw [hj, Nat.mul_comm c.m_constrains.length]
      exact flat_index_lt (by simp only [POS_PER_ENTITY]; omega) hk
    have b3 : k < lambda.length := hl ▸ hk
    simp only [read_eq b1, read_eq b2, read_eq b3, write_eq _ b1, Option.bind_eq_bind,
      Option.some_bind, List.length_set, hs, and_self]
  · rw [if_neg hd, if_neg hd]
    exact ⟨rfl, hs⟩

/-- A checked loop that folds two reads into a number. -/
theorem scalar_loop_checked_eq (lo hi : Nat) (X Y : List ℚ) (ix iy : Nat → Nat)
    (op : ℚ → ℚ → ℚ → ℚ) (v0 : ℚ)
    (hx : ∀ k, lo ≤ k → k < hi → ix k < X.length)
    (hy : ∀ k, lo ≤ k → k < hi → iy k < Y.length) :
    forLoopM lo hi (fun k acc =>
      (read X (ix k)).bind fun x => (read Y (iy k)).bind fun y => some (op acc x y)) v0 =
    some (forLoop lo hi (fun k acc => op acc (X.getD (ix k) 0) (Y.getD (iy k) 0)) v0) := by
  refine (forLoopM_eq (fun _ : ℚ => True) lo hi _ _ v0 trivial ?_).1
  intro k acc h1 h2 _
  simp only [read_eq (hx k h1 h2), read_eq (hy k h1 h2), Option.some_bind, and_self]

theorem lu_row_checked_eq (n : Nat) (A L U : List ℚ) (i : Nat) (hi : i < n)
    (hA : A.length = n * n) (hL : L.length = n * n) (hU : U.length = n * n) :
    forLoopM i n (fun j U =>
      (forLoopM 0 i (fun k sum =>
        (read L (i * n + k)).bind fun l => (read U (k * n + j)).bind fun u =>
          some (sum + l * u)) 0).bind fun sum =>
      (read A (i * n + j)).bind fun a => write U (i * n + j) (a - sum)) U =
    some (forLoop i n (fun j U =>
      U.set (i * n + j) (A.getD (i * n + j) 0 - forLoop 0 i (fun k sum =>
        sum + L.getD (i * n + k) 0 * U.getD (k * n + j) 0) 0)) U) ∧
    (forLoop i n (fun j U =>
      U.set (i * n + j) (A.getD (i * n + j) 0 - forLoop 0 i (fun k sum =>
        sum + L.getD (i * n + k) 0 * U.getD (k * n + j) 0) 0)) U).length = n * n := by
  refine forLoopM_eq (fun U : List ℚ => U.length = n * n) i n _ _ U hU ?_
  intro j U _ hj hU
  have hs := scalar_loop_checked_eq 0 i L U (fun k => i * n + k) (fun k => k * n + j)
    (fun a x y => a + x * y) 0
    (fun k _ hk => hL ▸ flat_index_lt hi (by omega))
    (fun k _ hk => hU ▸ flat_index_lt (by omega) hj)
  have b1 : i * n + j < A.length := hA ▸ flat_index_lt hi hj
  have b2 : i * n + j < U.length := hU ▸ flat_index_lt hi hj
  simp only [hs, read_eq b1, write_eq _ b2, Option.some_bind, List.length_set, hU, and_self]

theorem lu_col_checked_eq (n : Nat) (A L U : List ℚ) (i : Nat) (hi : i < n)
    (hA : A.length = n * n) (hL : L.length = n * n) (hU : U.length = n * n) :
    forLoopM (i + 1) n (fun j L =>
      (forLoopM 0 i (fun k sum =>
        (read L (j * n + k)).bind fun l => (read U (k * n + i)).bind fun u =>
          some (sum + l * u)) 0).bind fun sum =>
      (read A (j * n + i)).bind fun a => (read U (i * n + i)).bind fun p =>
        write L (j * n + i) ((a - sum) / p)) L =
    some (forLoop (i + 1) n (fun j L =>
      L.set (j * n + i) ((A.getD (j * n + i) 0 - forLoop 0 i (fun k sum =>
        sum + L.getD (j * n + k) 0 * U.getD (k * n + i) 0) 0) / U.getD (i * n + i) 0)) L) ∧
    (forLoop (i + 1) n (fun j L =>
      L.set (j * n + i) ((A.getD (j * n + i) 0 - forLoop 0 i (fun k sum =>
        sum + L.getD (j * n + k) 0 * U.getD (k * n + i) 0) 0) / U.getD (i * n + i) 0))
      L).length = n * n := by
  refine forLoopM_eq (fun L : List ℚ => L.length = n * n) (i + 1) n _ _ L hL ?_
  intro j L _ hj hL
  have hs := scalar_loop_checked_eq 0 i L U (fun k => j * n + k) (fun k => k * n + i)
    (fun a x y => a + x * y) 0
    (fun k _ hk => hL ▸ flat_index_lt hj (by omega))
    (fun k _ hk => hU ▸ flat_index_lt (by omega) hi)
  have b1 : j * n + i < A.length := hA ▸ flat_index_lt hj hi
  have b2 : j * n + i < L.length := hL ▸ flat_index_lt hj hi
  have b3 : i * n + i < U.length := hU ▸ flat_index_lt hi hi
  simp only [hs, read_eq b1, read_eq b3, write_eq _ b2, Option.some_bind, List.length_set, hL,
    and_self]

theorem lu_factor_checked_eq (n : Nat) (A : List ℚ) (hA : A.length = n * n) :
    lu_factor_checked n A = some (lu_factor n A) := by
  refine (forLoopM_eq (fun LU : List ℚ × List ℚ => LU.1.length = n * n ∧ LU.2.length = n * n)
    0 n _ _ _ ⟨by simp, by simp⟩ ?_).1
  rintro i ⟨L, U⟩ _ hi ⟨hL, hU⟩
  simp only at hL hU
  obtain ⟨e1, p1⟩ := lu_row_checked_eq n A L U i hi hA hL hU
  have b1 : i * n + i < L.length := hL ▸ flat_index_lt hi hi
  obtain ⟨e2, p2⟩ := lu_col_checked_eq n A (L.set (i * n + i) 1) _ i hi hA
    (by simpa using hL) p1
  simp only [Option.bind_eq_bind, Option.pure_def, e1, Option.some_bind, write_eq _ b1, e2, p1,
    p2, and_self]

theorem lu_forward_checked_eq (n : Nat) (L b : List ℚ) (hL : L.length = n * n)
    (hb : b.length = n) : lu_forward_checked n L b = some (lu_forward n L b) := by
  refine (forLoopM_eq (fun sol : List ℚ => sol.length = n) 0 n _ _ _ (by simp) ?_).1
  intro i sol _ hi hsol
  have hs := scalar_loop_checked_eq 0 i L sol (fun j => i * n + j) (fun j => j)
    (fun a x y => a - x * y) (b.getD i 0)
    (fun k _ hk => hL ▸ flat_index_lt hi (by omega))
    (fun k _ hk => by show k < sol.length; omega)
  have b1 : i < b.length := hb ▸ hi
  have b2 : i * n + i < L.length := hL ▸ flat_index_lt hi hi
  have b3 : i < sol.length := hsol ▸ hi
  simp only [Option.bind_eq_bind, Option.pure_def, read_eq b1, Option.some_bind, hs, read_eq b2,
    write_eq _ b3, List.length_set, hsol, and_self]

theorem lu_backward_checked_eq (n : Nat) (U : List ℚ) (hU : U.length = n * n) :
    ∀ (fuel i : Nat) (sol : List ℚ), sol.length = n →
      lu_backward_checked n U fuel i sol = lu_backward n U fuel i sol := by
  intro fuel
  induction fuel with
  | zero => intro i sol _; rfl
  | succ fuel ih =>
    intro i sol hsol
    rw [lu_backward_checked, lu_backward]
    by_cases h : i < n
    · rw [if_pos h, if_pos h]
      have hs := scalar_loop_checked_eq (i + 1) n U sol (fun j => i * n + j) (fun j => j)
        (fun a x y => a - x * y) (sol.getD i 0)
        (fun k _ hk => hU ▸ flat_index_lt h hk)
        (fun k _ hk => by show k < sol.length; omega)
      have b1 : i < sol.length := hsol ▸ h
      have b2 : i * n + i < U.length := hU ▸ flat_index_lt h h
      simp only [Option.bind_eq_bind, Option.pure_def, read_eq b1, Option.some_bind, hs,
        read_eq b2, write_eq _ b1]
      exact ih _ _ (by simpa using hsol)
    · rw [if_neg h, if_neg h]

theorem lu_decomposition_checked_eq (fuel : Nat) (c : compeller2D) (A b : List ℚ)
    (hA : A.length = c.m_constrains.length * c.m_constrains.length)
    (hb : b.length = c.m_constrains.length) :
    lu_decomposition_checked fuel c A b = lu_decomposition fuel c A b := by
  obtain ⟨hL, hU, -⟩ := lu_factor_inv c.m_constrains.length A
  unfold lu_decomposition_checked lu_decomposition
  simp only [Option.bind_eq_bind, lu_factor_checked_eq _ A hA, Option.some_bind,
    lu_forward_checked_eq _ _ b hL hb]
  exact lu_backward_checked_eq _ _ hU _ _ _ (lu_forward_length _ _ _)

theorem lu_backward_length (n : Nat) (U : List ℚ) :
    ∀ (fuel i : Nat) (sol r : List ℚ), lu_backward n U fuel i sol = some r →
      r.length = sol.length := by
  intro fuel
  induction fuel with
  | zero => intro i sol r h; exact absurd h (by simp [lu_backward])
  | succ fuel ih =>
    intro i sol r h
    rw [lu_backward] at h
    by_cases hi : i < n
    · rw [if_pos hi] at h
      rw [ih _ _ _ h, List.length_set]
    · rw [if_neg hi] at h
      rw [← Option.some.inj h]

theorem solve_checked_eq (fuel : Nat) (c : compeller2D) (stchanges inv_masses : List ℚ)
    (hst : stchanges.length = 6 * c.m_entities.length)
    (hw : inv_masses.length = 3 * c.m_entities.length)
    (hidx : ∀ i, i < c.m_constrains.length →
      ∀ e ∈ (c.m_constrains.getD i default).entities, e < c.m_entities.length) :
    solve_and_load_constrains_checked fuel c stchanges inv_masses =
      solve_and_load_constrains fuel c stchanges inv_masses := by
  have hj := (constrain_matrix_inv c constrain_interface.constrain_grad hidx).1
  have hdj := (constrain_matrix_inv c constrain_interface.constrain_grad_derivative hidx).1
  have hA := (lhs_inv c (constrain_matrix c constrain_interface.constrain_grad) inv_masses).1
  have hb := (rhs_inv c (constrain_matrix c constrain_interface.constrain_grad)
    (constrain_matrix c constrain_interface.constrain_grad_derivative) stchanges inv_masses).1
  unfold solve_and_load_constrains_checked solve_and_load_constrains jacobian
    jacobian_derivative
  simp only [Option.bind_eq_bind, constrain_matrix_checked_eq c _ hidx, Option.some_bind,
    lhs_checked_eq c _ inv_masses hj hw, rhs_checked_eq c _ _ stchanges inv_masses hj hdj hst hw,
    lu_decomposition_checked_eq fuel c _ _ hA hb]
  cases hlu : lu_decomposition fuel c
      (lhs c (constrain_matrix c constrain_interface.constrain_grad) inv_masses)
      (rhs c (constrain_matrix c constrain_interface.constrain_grad)
        (constrain_matrix c constrain_interface.constrain_grad_derivative) stchanges
        inv_masses) with
  | none => rfl
  | some lambda =>
    have hl : lambda.length = c.m_constrains.length := by
      unfold lu_decomposition at hlu
      rw [lu_backward_length _ _ _ _ _ _ hlu, lu_forward_length]
    simp only [Option.some_bind, Option.map_some']
    exact load_constrain_accels_checked_eq c _ lambda stchanges hj hl hst

/-- C17: index safety of the solver.  When `stchanges` has length `6N`,
`inv_masses` has length `3N` and every body a constraint references has an index
below `N` (the gradients are `std::array<float, 3>`, three components by type),
no read or write of `constrain_matrix`, `lhs`, `rhs`, `lu_decomposition` and
`load_constrain_accels` is out of bounds: each function with checked indexing
gives the result of the function itself, for Jacobians of length `M * 3N`,
matrices of length `M * M` and vectors `b`, `lambda` of length `M`, and so does
`solve_and_load_constrains`, which returns a vector for `M < 2^64` and more fuel
than constraints. -/
theorem solver_index_safe (fuel : Nat) (c : compeller2D) (stchanges inv_masses : List ℚ)
    (hst : stchanges.length = 6 * c.m_entities.length)
    (hw : inv_masses.length = 3 * c.m_entities.length)
    (hidx : ∀ i, i < c.m_constrains.length →
      ∀ e ∈ (c.m_constrains.getD i default).entities, e < c.m_entities.length)
    (hsize : c.m_constrains.length < SIZE_T) (hfuel : c.m_constrains.length < fuel) :
    (∀ grad, constrain_matrix_checked c grad = some (constrain_matrix c grad)) ∧
    (∀ jcb : List ℚ, jcb.length = c.m_constrains.length * (3 * c.m_entities.length) →
      lhs_checked c jcb inv_masses = some (lhs c jcb inv_masses)) ∧
    (∀ jcb djcb : List ℚ, jcb.length = c.m_constrains.length * (3 * c.m_entities.length) →
      djcb.length = c.m_constrains.length * (3 * c.m_entities.length) →
      rhs_checked c jcb djcb stchanges inv_masses =
        some (rhs c jcb djcb stchanges inv_masses)) ∧
    (∀ A b : List ℚ, A.length = c.m_constrains.length * c.m_constrains.length →
      b.length = c.m_constrains.length →
      ∃ sol, lu_decomposition_checked fuel c A b = some sol ∧
        lu_decomposition fuel c A b = some sol) ∧
    (∀ jcb lambda : List ℚ, jcb.length = c.m_constrains.length * (3 * c.m_entities.length) →
      lambda.length = c.m_constrains.length →
      load_constrain_accels_checked c jcb lambda stchanges =
        some (load_constrain_accels c jcb lambda stchanges)) ∧
    ∃ st, solve_and_load_constrains_checked fuel c stchanges inv_masses = some st ∧
      solve_and_load_constrains fuel c stchanges inv_masses = some st := by
  refine ⟨fun grad => constrain_matrix_checked_eq c grad hidx,
    fun jcb hj => lhs_checked_eq c jcb inv_masses hj hw,
    fun jcb djcb hj hdj => rhs_checked_eq c jcb djcb stchanges inv_masses hj hdj hst hw,
    fun A b hA hb => ?_,
    fun jcb lambda hj hl => load_constrain_accels_checked_eq c jcb lambda stchanges hj hl hst,
    ?_⟩
  · refine ⟨_, ?_, lu_decomposition_total fuel c A b hsize hfuel⟩
    rw [lu_decomposition_checked_eq fuel c A b hA hb]
    exact lu_decomposition_total fuel c A b hsize hfuel
  · have hs : ∃ st, solve_and_load_constrains fuel c stchanges inv_masses = some st := by
      unfold solve_and_load_constrains
      simp only [lu_decomposition_total fuel c _ _ hsize hfuel, Option.map_some']
      exact ⟨_, rfl⟩
    obtain ⟨st, hs⟩ := hs
    exact ⟨st, by rw [solve_checked_eq fuel c stchanges inv_masses hst hw hidx, hs], hs⟩

theorem solver_index_safe_witness :
    (∀ grad, constrain_matrix_checked two_rows grad = some (constrain_matrix two_rows grad)) ∧
    (∀ jcb : List ℚ,
      jcb.length = two_rows.m_constrains.length * (3 * two_rows.m_entities.length) →
      lhs_checked two_rows jcb [2, 2, 2] = some (lhs two_rows jcb [2, 2, 2])) ∧
    (∀ jcb djcb : List ℚ,
      jcb.length = two_rows.m_constrains.length * (3 * two_rows.m_entities.length) →
      djcb.length = two_rows.m_constrains.length * (3 * two_rows.m_entities.length) →
      rhs_checked two_rows jcb djcb [1, 2, 3, 4, 5, 6] [2, 2, 2] =
        some (rhs two_rows jcb djcb [1, 2, 3, 4, 5, 6] [2, 2, 2])) ∧
    (∀ A b : List ℚ,
      A.length = two_rows.m_constrains.length * two_rows.m_constrains.length →
      b.length = two_rows.m_constrains.length →
      ∃ sol, lu_decomposition_checked 3 two_rows A b = some sol ∧
        lu_decomposition 3 two_rows A b = some sol) ∧
    (∀ jcb lambda : List ℚ,
      jcb.length = two_rows.m_constrains.length * (3 * two_rows.m_entities.length) →
      lambda.length = two_rows.m_constrains.length →
      load_constrain_accels_checked two_rows jcb lambda [1, 2, 3, 4, 5, 6] =
        some (load_constrain_accels two_rows jcb lambda [1, 2, 3, 4, 5, 6])) ∧
    ∃ st, solve_and_load_constrains_checked 3 two_rows [1, 2, 3, 4, 5, 6] [2, 2, 2] = some st ∧
      solve_and_load_constrains 3 two_rows [1, 2, 3, 4, 5, 6] [2, 2, 2] = some st :=
  solver_index_safe 3 two_rows [1, 2, 3, 4, 5, 6] [2, 2, 2] rfl rfl (by
    intro i hi e he
    have hi2 : i < 2 := hi
    interval_cases i <;> simp [two_rows] at he ⊢ <;> omega) (by decide) (by decide)

/-- The checked functions do stop at a bad index: a constraint on a body that
does not exist makes `constrain_matrix` write past the end of its matrix, and a
Jacobian that is too short makes `lhs` read past its end. -/
theorem checked_indexing_detects :
    constrain_matrix_checked dangling_constraint constrain_interface.constrain_grad = none ∧
    lhs_checked one_constraint [1, 0] [2, 2, 2] = none := by
  constructor
  · simp [constrain_matrix_checked, dangling_constraint, forLoopM, iterateM, write]
  · simp [lhs_checked, one_constraint, forLoopM, iterateM, read, write]

/-! ## No constraints -/

theorem load_checked_no_rows (c : compeller2D) (hrows : c.m_constrains.length = 0)
    (jcb lambda stchanges : List ℚ) :
    load_constrain_accels_checked c jcb lambda stchanges = some stchanges := by
  unfold load_constrain_accels_checked
  rw [hrows]
  refine ((forLoopM_eq (fun s : List ℚ => s = stchanges) 0 _ _ (fun _ s => s) stchanges rfl
    ?_).1).trans ?_
  · intro i s _ hi hs
    have hei : c.m_entities[i]? = some (c.m_entities.getD i ⟨false⟩) := by
      rw [List.getElem?_eq_getElem hi, List.getD_eq_getElem _ _ hi]
    simp only [hei, Option.bind_eq_bind, Option.some_bind]
    by_cases hd : (c.m_entities.getD i ⟨false⟩).dynamic = true
    · rw [if_pos hd]
      exact ⟨by simp [forLoopM, iterateM], hs⟩
    · rw [if_neg hd]
      exact ⟨rfl, hs⟩
  · congr 1
    exact forLoop_inv (fun _ s => s = stchanges) 0 _ (Nat.zero_le _) _ _ rfl
      (fun _ _ _ _ h => h)

/-- C8: with no constraints the solver is a no-op, and it touches no cell and
divides nothing.  For every list of bodies, every `stchanges` and every
`inv_masses` (of any length, the empty vectors included), with an empty
constraint list: the call ends and leaves `stchanges` as it was; so does the call
with checked indexing, in which any read or write of a cell of `stchanges`,
`inv_masses` or of the vectors built on the way would end the run for vectors
that are empty; the Jacobians, `A` and `b` are empty; the factorisation and the
forward substitution with checked indexing return empty vectors, their loops
(which hold the divisions) running no iteration; and the back-substitution,
whose counter wraps from `0 - 1` to `2^64 - 1`, runs its body (which holds the
last division) at no counter value. -/
theorem solve_no_constraints (fuel : Nat) (entities : List entity2D) (stiffness dampening : ℚ)
    (stchanges inv_masses : List ℚ) :
    solve_and_load_constrains (fuel + 1) ⟨entities, [], stiffness, dampening⟩ stchanges
      inv_masses = some stchanges ∧
    solve_and_load_constrains_checked (fuel + 1) ⟨entities, [], stiffness, dampening⟩ stchanges
      inv_masses = some stchanges ∧
    solve_and_load_constrains_checked (fuel + 1) ⟨entities, [], stiffness, dampening⟩ [] [] =
      some [] ∧
    jacobian ⟨entities, [], stiffness, dampening⟩ = [] ∧
    jacobian_derivative ⟨entities, [], stiffness, dampening⟩ = [] ∧
    lhs ⟨entities, [], stiffness, dampening⟩ [] inv_masses = [] ∧
    rhs ⟨entities, [], stiffness, dampening⟩ [] [] stchanges inv_masses = [] ∧
    lu_factor_checked 0 [] = some ([], []) ∧
    lu_forward_checked 0 [] [] = some [] ∧
    lu_backward_counter 0 (fuel + 1) ((0 + SIZE_T - 1) % SIZE_T) = some [] ∧
    lu_backward_checked 0 [] (fuel + 1) ((0 + SIZE_T - 1) % SIZE_T) [] = some [] := by
  have hc : (0 + SIZE_T - 1) % SIZE_T = SIZE_T - 1 := by simp only [SIZE_T]; norm_num
  have hcnt : lu_backward_counter 0 (fuel + 1) ((0 + SIZE_T - 1) % SIZE_T) = some [] := by
    rw [hc, lu_backward_counter, if_neg (by omega)]
  have hbk : lu_backward_checked 0 [] (fuel + 1) ((0 + SIZE_T - 1) % SIZE_T) [] = some [] := by
    rw [hc, lu_backward_checked, if_neg (by omega)]
  have hchk : ∀ st w : List ℚ,
      solve_and_load_constrains_checked (fuel + 1) ⟨entities, [], stiffness, dampening⟩ st w =
        some st := by
    intro st w
    have h1 : ∀ grad, constrain_matrix_checked ⟨entities, [], stiffness, dampening⟩ grad =
        some [] := fun _ => by simp [constrain_matrix_checked, forLoopM, iterateM]
    have h2 : lhs_checked ⟨entities, [], stiffness, dampening⟩ [] w = some [] := rfl
    have h3 : rhs_checked ⟨entities, [], stiffness, dampening⟩ [] [] st w = some [] := rfl
    have h4 : lu_decomposition_checked (fuel + 1) ⟨entities, [], stiffness, dampening⟩ [] [] =
        some [] := by
      unfold lu_decomposition_checked
      exact hbk
    unfold solve_and_load_constrains_checked
    simp only [Option.bind_eq_bind, h1, Option.some_bind, h2, h3, h4]
    exact load_checked_no_rows ⟨entities, [], stiffness, dampening⟩ rfl _ _ _
  have hcm : ∀ grad, constrain_matrix ⟨entities, [], stiffness, dampening⟩ grad = [] :=
    fun _ => by simp [constrain_matrix, forLoop, iterate]
  refine ⟨?_, hchk stchanges inv_masses, hchk [] [], hcm _, hcm _, rfl, rfl, rfl, rfl, hcnt,
    hbk⟩
  unfold solve_and_load_constrains lu_decomposition
  simp only [List.length_nil, hc]
  rw [lu_backward, if_neg (by omega)]
  simp only [Option.map_some']
  rw [load_no_rows ⟨entities, [], stiffness, dampening⟩ rfl]

end phys
